import Mathlib

/-!
Verification of the Segment protocol client codec (segment-dev/segment-rs).

The development shallowly embeds `src/frame.rs`, `src/connection.rs` and
`src/command.rs`:

* bytes are `Nat` values (the encoder only emits values < 256; the parser
  compares bytes against concrete ASCII codes, so nothing depends on an
  upper bound);
* the Rust `Cursor<&[u8]>` is embedded in consumption style: a parsing
  function receives the not-yet-consumed suffix of the buffer and returns
  the remaining suffix, which determines `cursor.position` as the length
  difference;
* fallible Rust code returns a result type; a Rust panic (`unreachable!`,
  out-of-bounds indexing) is a distinguished outcome `panicked`;
* `f64` payloads are embedded as `ℚ`, a superset of the finite `f64`
  values (which are the dyadic rationals of the binary64 range); the
  decimal text formatting and parsing of doubles (`format!("{}", f64)`
  and `str::parse::<f64>`) are modelled exactly on the payloads that can
  come from an `f64` — see `fmt_f64` and `rat_of_decimal` for the precise
  correspondence — and the `as f32` narrowing cast is modelled as
  IEEE-754 binary32 round-to-nearest-even on rationals, which is exact on
  every value the theorems use.
-/

namespace Segment

/-- Result of running embedded Rust code: `ok` / `err` mirror Rust's
`Result`; `panicked` marks a Rust panic; `outOfFuel` is an artifact of the
fuel-based embedding of the recursive parser and is proved unreachable for
the fuel the entry point supplies (`parse_bytes_ne_oof` below). -/
inductive PRes (ε α : Type) : Type where
  | ok (val : α)
  | err (e : ε)
  | panicked
  | outOfFuel
deriving DecidableEq, Repr

/-- `src/frame.rs` `Frame`: a Segment protocol frame. `Bytes` payloads are
byte lists, `i64` is `Int` (range-restricted where the source is), `f64`
is `ℚ` (see the module comment). -/
inductive Frame : Type where
  | string (data : List Nat)
  | integer (val : Int)
  | array (elems : List Frame)
  | boolean (val : Bool)
  | null
  | map (entries : List Frame)
  | double (val : ℚ)
  | error (data : List Nat)

/-- `src/frame.rs` `ParseFrameError`. The `Utf8Error`/`ParseFloatError`
payloads carried by the source variants are dropped: no claim consults
them. -/
inductive ParseFrameError : Type where
  | incomplete
  | invalidFormat
  | utf8Error
  | parseFloatError
deriving DecidableEq, Repr

/-- `src/connection.rs` `ConnectionError`. The `io::Error` payload of
`TCPError` is dropped. -/
inductive ConnectionError : Type where
  | tcpError
  | eof
  | frameError (e : ParseFrameError)
deriving DecidableEq, Repr

/-- `src/command.rs` `CommandError`. -/
inductive CommandError : Type where
  | incompatibleType (got : String) (want : String)
  | utf8Error
  | queryError (msg : String)
  | connectionError (e : ConnectionError)
  | decode
deriving DecidableEq, Repr

/-! ## Decimal text (the `atoi` crate and `format!("{}")`) -/

/-- Accumulating loop of decimal parsing: consumes ASCII digits, `none` on
the first non-digit byte. -/
def dec_digits_go (acc : Nat) : List Nat → Option Nat
  | [] => some acc
  | b :: bs => if 48 ≤ b ∧ b ≤ 57 then dec_digits_go (acc * 10 + (b - 48)) bs else none

/-- Value of a nonempty all-digit byte string, `none` otherwise. -/
def dec_digits : List Nat → Option Nat
  | [] => none
  | b :: bs => dec_digits_go 0 (b :: bs)

/-- The `atoi` crate's `atoi::<usize>`: whole-slice decimal parse with an
optional sign, `None` on an empty slice, a stray byte, or overflow past
`usize::MAX` (64-bit model). A `-` sign only checks out for value zero. -/
def atoi_usize (s : List Nat) : Option Nat :=
  match s with
  | [] => none
  | b :: r =>
    if b = 43 then (dec_digits r).bind (fun v => if v < 2 ^ 64 then some v else none)
    else if b = 45 then (dec_digits r).bind (fun v => if v = 0 then some 0 else none)
    else (dec_digits (b :: r)).bind (fun v => if v < 2 ^ 64 then some v else none)

/-- The `atoi` crate's `atoi::<i64>`: whole-slice signed decimal parse,
`None` on overflow past the `i64` range. -/
def atoi_i64 (s : List Nat) : Option Int :=
  match s with
  | [] => none
  | b :: r =>
    if b = 43 then (dec_digits r).bind (fun v => if v < 2 ^ 63 then some (v : Int) else none)
    else if b = 45 then (dec_digits r).bind (fun v => if v ≤ 2 ^ 63 then some (-(v : Int)) else none)
    else (dec_digits (b :: r)).bind (fun v => if v < 2 ^ 63 then some (v : Int) else none)

/-- Fuelled loop of decimal rendering; `nat_digits` supplies enough fuel
for the value, so the `fuel = 0` base case is never the answer. -/
def nat_digits_go : Nat → Nat → List Nat
  | 0, _ => []
  | fuel + 1, n => if n < 10 then [48 + n] else nat_digits_go fuel (n / 10) ++ [48 + n % 10]

/-- `format!("{}", n)` for an unsigned integer: most-significant-first
ASCII decimal digits, no leading zeros (just `"0"` for zero). -/
def nat_digits (n : Nat) : List Nat :=
  nat_digits_go (n + 1) n

/-- `format!("{}", i)` for `i64`: a `-` sign followed by the digits of the
absolute value, or just the digits. -/
def int_digits (i : Int) : List Nat :=
  if i < 0 then 45 :: nat_digits (-i).toNat else nat_digits i.toNat

/-- ASCII decimal digit test, shared by the float text functions. -/
def is_digit (b : Nat) : Bool := decide (48 ≤ b ∧ b ≤ 57)

/-- Fuelled multiplicity count: how often `p` divides `n`. -/
def mult_go : Nat → Nat → Nat → Nat
  | 0, _, _ => 0
  | fuel + 1, p, n => if n % p = 0 ∧ n ≠ 0 ∧ 2 ≤ p then mult_go fuel p (n / p) + 1 else 0

/-- Multiplicity of `p` in `n` (fuelled, computable by reduction). -/
def mult (p n : Nat) : Nat := mult_go n p n

/-- `m` rendered as exactly `k` decimal digits, zero-padded at the front
(the fraction part of an exact decimal expansion). -/
def pad_digits (k m : Nat) : List Nat :=
  List.replicate (k - (nat_digits m).length) 48 ++ nat_digits m

/-- The payloads whose denominator divides a power of ten — exactly the
rationals with a finite decimal expansion. Every finite `f64` value is a
dyadic rational and therefore satisfies this. -/
def dec_finite (q : ℚ) : Bool :=
  decide (q.den = 2 ^ mult 2 q.den * 5 ^ mult 5 q.den)

/-! ## `src/frame.rs` — the parser -/

/-- `frame.rs` `get_line`: scan the remaining bytes for the first adjacent
`\r\n` pair wholly inside the buffer; on success return the line before it
and the bytes after it (the cursor advances past the pair). `none` models
`Err(Incomplete)` — both the empty-buffer early return and a scan that
finds no terminator. -/
def get_line : List Nat → Option (List Nat × List Nat)
  | [] => none
  | [_] => none
  | b :: c :: bs =>
    if b = 13 ∧ c = 10 then some ([], bs)
    else
      match get_line (c :: bs) with
      | some (line, rest) => some (b :: line, rest)
      | none => none

/-- The `?` operator on an embedded `Result`: continue on `ok`, propagate
everything else. -/
def pbind {ε α β : Type} (x : PRes ε α) (f : α → PRes ε β) : PRes ε β :=
  match x with
  | .ok a => f a
  | .err e => .err e
  | .panicked => .panicked
  | .outOfFuel => .outOfFuel

/-- `Option::ok_or(ParseFrameError::InvalidFormat)` as used on the `atoi`
results. -/
def ok_or {α : Type} (x : Option α) : PRes ParseFrameError α :=
  match x with
  | some a => .ok a
  | none => .err .invalidFormat

/-- The `?` operator on `get_line`'s result (whose only error is
`Incomplete`). -/
def incomplete_or {α : Type} (x : Option α) : PRes ParseFrameError α :=
  match x with
  | some a => .ok a
  | none => .err .incomplete

@[simp] theorem pbind_ok {ε α β : Type} (a : α) (f : α → PRes ε β) :
    pbind (.ok a) f = f a := rfl

@[simp] theorem pbind_err {ε α β : Type} (e : ε) (f : α → PRes ε β) :
    pbind (.err e) f = .err e := rfl

@[simp] theorem pbind_panicked {ε α β : Type} (f : α → PRes ε β) :
    pbind .panicked f = .panicked := rfl

@[simp] theorem pbind_outOfFuel {ε α β : Type} (f : α → PRes ε β) :
    pbind .outOfFuel f = .outOfFuel := rfl

@[simp] theorem ok_or_some {α : Type} (a : α) : ok_or (some a) = .ok a := rfl

@[simp] theorem ok_or_none {α : Type} : ok_or (none : Option α) = .err .invalidFormat := rfl

@[simp] theorem incomplete_or_some {α : Type} (a : α) : incomplete_or (some a) = .ok a := rfl

@[simp] theorem incomplete_or_none {α : Type} :
    incomplete_or (none : Option α) = .err .incomplete := rfl

/-- `frame.rs` `parse_string` (after the header line was consumed): parse
the declared length, require `len + 2` more bytes (else `Incomplete`),
copy `len` payload bytes and skip `len + 2` — the source never inspects
the two skipped trailer bytes. -/
def parse_string (line rest : List Nat) : PRes ParseFrameError (Frame × List Nat) :=
  pbind (ok_or (atoi_usize line)) fun len =>
    if rest.length < len + 2 then .err .incomplete
    else .ok (.string (rest.take len), rest.drop (len + 2))

/-- `frame.rs` `parse_error`: identical to `parse_string` but yields an
`Error` frame. -/
def parse_error (line rest : List Nat) : PRes ParseFrameError (Frame × List Nat) :=
  pbind (ok_or (atoi_usize line)) fun len =>
    if rest.length < len + 2 then .err .incomplete
    else .ok (.error (rest.take len), rest.drop (len + 2))

/-- `frame.rs` `parse_integer`. -/
def parse_integer (line : List Nat) : PRes ParseFrameError Frame :=
  pbind (ok_or (atoi_i64 line)) fun i => .ok (.integer i)

/-- `frame.rs` `parse_boolean`: rejects content longer than one byte, then
indexes `line[0]` — which panics when the content is empty. -/
def parse_boolean (line : List Nat) : PRes ParseFrameError Frame :=
  if line.length > 1 then .err .invalidFormat
  else
    match line with
    | [] => .panicked
    | v :: _ =>
      if v = 48 then .ok (.boolean false)
      else if v = 49 then .ok (.boolean true)
      else .err .invalidFormat

/-- `frame.rs` `parse_null`. -/
def parse_null (line : List Nat) : PRes ParseFrameError Frame :=
  if line ≠ [] then .err .invalidFormat else .ok .null

/-- Modelled: UTF-8 validation and decoding (`str::from_utf8` followed by
`to_string`), strict per RFC 3629 — continuation bytes `80..BF`, no
overlong forms, no surrogates, nothing above `U+10FFFF`. -/
def utf8_two (p : List Nat → Option (List Char)) (b : Nat) : List Nat → Option (List Char)
  | b2 :: bs' =>
    if 128 ≤ b2 ∧ b2 ≤ 191 then
      (p bs').map (Char.ofNat ((b - 192) * 64 + (b2 - 128)) :: ·)
    else none
  | [] => none

def utf8_three (p : List Nat → Option (List Char)) (b : Nat) : List Nat → Option (List Char)
  | b2 :: b3 :: bs' =>
    if (if b = 224 then 160 ≤ b2 ∧ b2 ≤ 191
        else if b = 237 then 128 ≤ b2 ∧ b2 ≤ 159
        else 128 ≤ b2 ∧ b2 ≤ 191) ∧ 128 ≤ b3 ∧ b3 ≤ 191 then
      (p bs').map (Char.ofNat ((b - 224) * 4096 + (b2 - 128) * 64 + (b3 - 128)) :: ·)
    else none
  | _ => none

def utf8_four (p : List Nat → Option (List Char)) (b : Nat) : List Nat → Option (List Char)
  | b2 :: b3 :: b4 :: bs' =>
    if (if b = 240 then 144 ≤ b2 ∧ b2 ≤ 191
        else if b = 244 then 128 ≤ b2 ∧ b2 ≤ 143
        else 128 ≤ b2 ∧ b2 ≤ 191) ∧ 128 ≤ b3 ∧ b3 ≤ 191 ∧ 128 ≤ b4 ∧ b4 ≤ 191 then
      (p bs').map
        (Char.ofNat ((b - 240) * 262144 + (b2 - 128) * 4096 + (b3 - 128) * 64 + (b4 - 128)) :: ·)
    else none
  | _ => none

def utf8_decode_go : Nat → List Nat → Option (List Char)
  | _, [] => some []
  | 0, _ :: _ => none
  | fuel + 1, b :: bs =>
    if b < 128 then (utf8_decode_go fuel bs).map (Char.ofNat b :: ·)
    else if 194 ≤ b ∧ b ≤ 223 then utf8_two (utf8_decode_go fuel) b bs
    else if 224 ≤ b ∧ b ≤ 239 then utf8_three (utf8_decode_go fuel) b bs
    else if 240 ≤ b ∧ b ≤ 244 then utf8_four (utf8_decode_go fuel) b bs
    else none

/-- Modelled: `str::from_utf8(bytes)?.to_string()`. The fuel counts
decoded characters; every character consumes at least one byte, so
`bs.length` units never run out. -/
def utf8_decode (bs : List Nat) : Option String :=
  (utf8_decode_go bs.length bs).map (fun cs => ⟨cs⟩)

/-- Decimal digit-string accumulation used by the float text parser. -/
def dec_foldl (l : List Nat) : Nat :=
  l.foldl (fun a b => a * 10 + (b - 48)) 0

/-- Exponent suffix of a decimal float literal. -/
def exp_part (mant : ℚ) (e : List Nat) : Option ℚ :=
  match e with
  | 43 :: ds => (dec_digits ds).map (fun n => mant * (10 : ℚ) ^ n)
  | 45 :: ds => (dec_digits ds).map (fun n => mant / (10 : ℚ) ^ n)
  | ds => (dec_digits ds).map (fun n => mant * (10 : ℚ) ^ n)

/-- Unsigned part of a decimal float literal: integer digits, optional
`.` and fraction digits, optional exponent; the value is the exact
rational the digits denote. -/
def rat_core (t : List Nat) : Option ℚ :=
  let intPart := t.takeWhile is_digit
  let rest0 := t.dropWhile is_digit
  let fp : List Nat × List Nat :=
    match rest0 with
    | 46 :: r => (r.takeWhile is_digit, r.dropWhile is_digit)
    | r => ([], r)
  if intPart = [] ∧ fp.1 = [] then none
  else
    let mant : ℚ := ((dec_foldl (intPart ++ fp.1) : Nat) : ℚ) / (10 : ℚ) ^ fp.1.length
    match fp.2 with
    | [] => some mant
    | 101 :: e => exp_part mant e
    | 69 :: e => exp_part mant e
    | _ => none

/-- Modelled: `str::parse::<f64>` on the header line of a Double frame:
an optional sign, then digits with optional fraction and exponent, read
into an *exact* rational. The real parser additionally rounds that value
to the nearest binary64 and accepts `inf`/`NaN` spellings (which the `ℚ`
payload cannot carry). On every input a theorem of this development feeds
it — the exact decimal expansion of a representable value — the real
parser's rounding step is the identity, so model and program agree
there. -/
def rat_of_decimal (s : List Nat) : Option ℚ :=
  match s with
  | [] => rat_core []
  | b :: t =>
    if b = 43 then rat_core t
    else if b = 45 then (rat_core t).map Neg.neg
    else rat_core (b :: t)

/-- `frame.rs` `parse_double`: UTF-8-check the line, then parse it as a
float; the two `?` operators map onto the two error variants. -/
def parse_double (line : List Nat) : PRes ParseFrameError Frame :=
  match utf8_decode line with
  | none => .err .utf8Error
  | some _ =>
    match rat_of_decimal line with
    | none => .err .parseFloatError
    | some q => .ok (.double q)

/-- The loop body of `frame.rs` `parse_array`: parse `n` frames in
sequence with the given single-frame parser, collecting them in order. -/
def parse_elems (p1 : List Nat → PRes ParseFrameError (Frame × List Nat)) :
    Nat → List Nat → PRes ParseFrameError (List Frame × List Nat)
  | 0, bs => .ok ([], bs)
  | n + 1, bs =>
    pbind (p1 bs) fun fr =>
      pbind (parse_elems p1 n fr.2) fun fsr => .ok (fr.1 :: fsr.1, fsr.2)

/-- The loop body of `frame.rs` `parse_map`: parse `n` key/value pairs,
pushing key then value into the flattened entry list. -/
def parse_pairs (p1 : List Nat → PRes ParseFrameError (Frame × List Nat)) :
    Nat → List Nat → PRes ParseFrameError (List Frame × List Nat)
  | 0, bs => .ok ([], bs)
  | n + 1, bs =>
    pbind (p1 bs) fun kr =>
      pbind (p1 kr.2) fun vr =>
        pbind (parse_pairs p1 n vr.2) fun fsr => .ok (kr.1 :: vr.1 :: fsr.1, fsr.2)

/-- `frame.rs` `parse`: take the header line, reject an empty line,
dispatch on the type-identifier byte. Recursion through Array/Map elements
is paid for with one unit of fuel per nesting level; siblings share fuel —
`parse_bytes` supplies fuel exceeding any nesting depth the buffer can
hold. -/
def parse : Nat → List Nat → PRes ParseFrameError (Frame × List Nat)
  | 0, _ => .outOfFuel
  | fuel + 1, bs =>
    pbind (incomplete_or (get_line bs)) fun lr =>
      match lr.1 with
      | [] => .err .invalidFormat
      | t :: content =>
        if t = 36 then parse_string content lr.2
        else if t = 37 then pbind (parse_integer content) fun f => .ok (f, lr.2)
        else if t = 42 then
          pbind (ok_or (atoi_usize content)) fun len =>
            pbind (parse_elems (parse fuel) len lr.2) fun p => .ok (.array p.1, p.2)
        else if t = 94 then pbind (parse_boolean content) fun f => .ok (f, lr.2)
        else if t = 45 then pbind (parse_null content) fun f => .ok (f, lr.2)
        else if t = 35 then
          pbind (ok_or (atoi_usize content)) fun len =>
            pbind (parse_pairs (parse fuel) len lr.2) fun p => .ok (.map p.1, p.2)
        else if t = 46 then pbind (parse_double content) fun f => .ok (f, lr.2)
        else if t = 33 then parse_error content lr.2
        else .err .invalidFormat

/-- Running `frame::parse` on a fresh cursor over `bs`, with fuel that
covers any possible nesting depth of `bs` (each recursion level consumes
at least one 4-byte header). -/
def parse_bytes (bs : List Nat) : PRes ParseFrameError (Frame × List Nat) :=
  parse (bs.length + 1) bs

/-! ## `src/connection.rs` — the encoder -/

/-- Digits of the magnitude `n / den` scaled by `10 ^ k` (with
`den ∣ 10 ^ k`): the integer part, then `.` and a `k`-digit fraction. -/
def fmt_core (n den k : Nat) : List Nat :=
  if k = 0 then nat_digits (n * 10 ^ k / den)
  else nat_digits (n * 10 ^ k / den / 10 ^ k) ++ 46 :: pad_digits k (n * 10 ^ k / den % 10 ^ k)

/-- Modelled: `format!("{}", f)` for an `f64` payload. Rust prints the
shortest decimal string (never scientific notation) that re-parses to the
same `f64`; this model prints the *exact* decimal expansion of the
rational payload, which exists precisely on the `dec_finite` payloads —
a superset of the finite `f64` values, all of which are dyadic. The two
renderings coincide on short values such as `1.5`, and they share every
property the theorems rely on: the bytes are only `-`, `.` and decimal
digits (in particular never `\r` or `\n`), and re-parsing the rendered
text recovers the original value exactly, as Rust guarantees for its own
rendering. -/
def fmt_f64 (q : ℚ) : List Nat :=
  (if q.num < 0 then [45] else []) ++
    fmt_core q.num.natAbs q.den (max (mult 2 q.den) (mult 5 q.den))

/-- `connection.rs` `Connection::write_value`: the byte sequence the
stream sees for one non-composite frame. The catch-all arm of the source
is `unreachable!()` — reached for Array and Map elements — modelled as
`none` (a panic, no bytes produced). -/
def write_value : Frame → Option (List Nat)
  | .string data => some (36 :: nat_digits data.length ++ 13 :: 10 :: data ++ [13, 10])
  | .integer i => some (37 :: int_digits i ++ [13, 10])
  | .boolean b => some (94 :: (if b then 49 else 48) :: [13, 10])
  | .null => some [45, 13, 10]
  | .double q => some (46 :: fmt_f64 q ++ [13, 10])
  | .error data => some (33 :: nat_digits data.length ++ 13 :: 10 :: data ++ [13, 10])
  | _ => none

/-- The `for value in array { self.write_value(value).await?; }` loops of
`write_frame`: concatenate the element encodings, propagating a panic. -/
def write_values : List Frame → Option (List Nat)
  | [] => some []
  | f :: fs =>
    match write_value f, write_values fs with
    | some w, some ws => some (w ++ ws)
    | _, _ => none

/-- `connection.rs` `Connection::write_frame`: a top-level Array frame
writes `*`, its element count and each element through `write_value`; a
top-level Map writes `#` and *half* its entry-list length; anything else
goes through `write_value` directly. -/
def write_frame : Frame → Option (List Nat)
  | .array elems =>
    match write_values elems with
    | some ws => some (42 :: nat_digits elems.length ++ 13 :: 10 :: ws)
    | none => none
  | .map entries =>
    match write_values entries with
    | some ws => some (35 :: nat_digits (entries.length / 2) ++ 13 :: 10 :: ws)
    | none => none
  | f => write_value f

/-! ## `src/connection.rs` — the stream framer -/

/-- `connection.rs` `Connection::parse_frame`: run the codec over the
buffered bytes; on success drop the consumed prefix (the cursor position)
from the buffer and hand back the frame, on `Incomplete` report "no frame
yet" leaving the buffer untouched, on any other parse error fail leaving
the buffer untouched. The returned list is the buffer after the call. -/
def parse_frame (buf : List Nat) : PRes ConnectionError (Option Frame × List Nat) :=
  match parse_bytes buf with
  | .ok (f, rest) => .ok (some f, rest)
  | .err .incomplete => .ok (none, buf)
  | .err e => .err (.frameError e)
  | .panicked => .panicked
  | .outOfFuel => .outOfFuel

/-- `connection.rs` `Connection::read_frame`: loop parsing the buffer and
reading from the transport. The transport is embedded as the script
`chunks` of successful reads, each the byte list one `read_buf` appends
(`[]` being a zero-byte read, i.e. the peer closed). `none` means the
script ran out while the loop still wanted bytes — the real call would
still be awaiting the transport. On success the result carries the frame,
the remaining buffer and the unconsumed script. -/
def read_frame : List (List Nat) → List Nat →
    Option (PRes ConnectionError (Frame × List Nat × List (List Nat)))
  | chunks, buf =>
    match parse_frame buf with
    | .ok (some f, buf') => some (.ok (f, buf', chunks))
    | .ok (none, buf') =>
      match chunks with
      | [] => none
      | c :: cs => if c = [] then some (.err .eof) else read_frame cs (buf' ++ c)
    | .err e => some (.err e)
    | .panicked => some .panicked
    | .outOfFuel => some .outOfFuel

/-! ## `src/command.rs` — the value conversion layer and command builder -/

/-- Modelled from the spec: `Frame::as_str`, referenced from `command.rs`
but declared in a part of the repository outside the provided sources;
§4.4 says the `IncompatibleType` error names "the actual frame kind". -/
def frame_kind_name : Frame → String
  | .string _ => "string"
  | .integer _ => "integer"
  | .array _ => "array"
  | .boolean _ => "boolean"
  | .null => "null"
  | .map _ => "map"
  | .double _ => "double"
  | .error _ => "error"

/-- `i64::MAX` + 1. -/
def twoPow63 : Nat := 2 ^ 63

/-- `u64::MAX` + 1. -/
def twoPow64 : Nat := 2 ^ 64

/-- `command.rs` `impl ToSegmentFrame for u64`: `Frame::Integer(*self as
i64)` — the 64-bit value reinterpreted two's-complement, so values above
`i64::MAX` come out negative. The `u64` argument is a `Nat` below
`2 ^ 64`. -/
def u64_to_segment_frame (v : Nat) : Frame :=
  .integer (if v < twoPow63 then (v : Int) else (v : Int) - (twoPow64 : Int))

/-- Rust `x as u8` for `x : i64`: the low 8 bits. -/
def i64_as_u8 (x : Int) : Nat := (x % 256).toNat

/-- Rust `x as u64` for `x : i64`: two's-complement reinterpretation. -/
def i64_as_u64 (x : Int) : Nat := (x % (twoPow64 : Int)).toNat

/-- Rust `f as u8` for `f : f64` (model over ℚ): saturating cast —
truncate toward zero, clamp to `0..=255`. -/
def f64_as_u8 (q : ℚ) : Nat :=
  if q < 0 then 0 else min 255 ⌊q⌋.toNat

/-- Rust `f as u64` for `f : f64` (model over ℚ): saturating cast. -/
def f64_as_u64 (q : ℚ) : Nat :=
  if q < 0 then 0 else min (twoPow64 - 1) ⌊q⌋.toNat

/-- Round-to-nearest, ties-to-even, of a rational to an integer. -/
def rne (m : ℚ) : ℤ :=
  let f := ⌊m⌋
  let r := m - (f : ℚ)
  if r < 1 / 2 then f
  else if r > 1 / 2 then f + 1
  else if f % 2 = 0 then f else f + 1

/-- Fuelled search for the base-2 order of magnitude of `1 ≤ a`: the `e`
with `2 ^ e ≤ a < 2 ^ (e + 1)`. -/
def rlog2_up : Nat → ℚ → Nat
  | 0, _ => 0
  | fuel + 1, a => if a < 2 then 0 else rlog2_up fuel (a / 2) + 1

/-- Fuelled search for the base-2 order of magnitude of `0 < a < 1`: the
`k ≥ 1` with `2 ^ (-k) ≤ a < 2 ^ (-(k - 1))`. -/
def rlog2_down : Nat → ℚ → Nat
  | 0, _ => 0
  | fuel + 1, a => if 1 ≤ a then 0 else rlog2_down fuel (a * 2) + 1

/-- Base-2 logarithm (floor) of a positive rational, with fuel generous
enough for the numerator and denominator at hand. -/
def rlog2 (a : ℚ) : ℤ :=
  if 1 ≤ a then (rlog2_up (a.num.toNat + 1) a : ℤ) else -((rlog2_down (a.den + 1) a : ℤ))

/-- Rust's `as f32` narrowing (model over ℚ): IEEE-754 binary32
round-to-nearest-even — 24-bit significand, subnormal granularity
`2 ^ (-149)`. Overflow to infinity is not modelled (no theorem feeds it a
value near the f32 range boundary); on every binary32-representable
rational the function is the identity. -/
def as_f32 (q : ℚ) : ℚ :=
  if q = 0 then 0
  else
    let a : ℚ := |q|
    let e : ℤ := rlog2 a
    let g : ℤ := max (e - 23) (-149)
    let n : ℤ := rne (a / (2 : ℚ) ^ g)
    (if q < 0 then -1 else 1) * (n : ℚ) * (2 : ℚ) ^ g

/-- `command.rs` `impl FromSegmentFrame for u8`: Integer and Double frames
convert by native cast, anything else is `IncompatibleType`. -/
def u8_from_segment_frame (frame : Frame) : Except CommandError Nat :=
  match frame with
  | .integer val => .ok (i64_as_u8 val)
  | .double val => .ok (f64_as_u8 val)
  | other => .error (.incompatibleType (frame_kind_name other) "u8")

/-- `command.rs` `impl FromSegmentFrame for u64`. -/
def u64_from_segment_frame (frame : Frame) : Except CommandError Nat :=
  match frame with
  | .integer val => .ok (i64_as_u64 val)
  | .double val => .ok (f64_as_u64 val)
  | other => .error (.incompatibleType (frame_kind_name other) "u64")

/-- `command.rs` `impl FromSegmentFrame for f32`: both numeric frames
arrive through an `as f32` cast. -/
def f32_from_segment_frame (frame : Frame) : Except CommandError ℚ :=
  match frame with
  | .integer val => .ok (as_f32 (val : ℚ))
  | .double val => .ok (as_f32 val)
  | other => .error (.incompatibleType (frame_kind_name other) "f32")

/-- `command.rs` `Command::query` for a response type with decoder `dec`:
wrap the accumulated args in one Array frame, write it (`write_frame` can
panic on a nested composite argument), read one response frame, then
either surface an Error frame's UTF-8-decoded text as `QueryError` or
hand the frame to the response type's decoder. `none` means the transport
script ran out mid-read. -/
def query {α : Type} (dec : Frame → Except CommandError α) (args : List Frame)
    (chunks : List (List Nat)) (buf : List Nat) : Option (PRes CommandError α) :=
  match write_frame (.array args) with
  | none => some .panicked
  | some _ =>
    match read_frame chunks buf with
    | none => none
    | some .panicked => some .panicked
    | some .outOfFuel => some .outOfFuel
    | some (.err e) => some (.err (.connectionError e))
    | some (.ok (response, _, _)) =>
      match response with
      | .error val =>
        match utf8_decode val with
        | none => some (.err .utf8Error)
        | some s => some (.err (.queryError s))
      | _ =>
        match dec response with
        | .ok v => some (.ok v)
        | .error e => some (.err e)

/-! ## Round-trip: the fragment of the frame space the encoder handles

`write_value` panics (`unreachable!`) on composite frames, so only frames
whose Array/Map elements are non-composite ever make it onto the wire;
`leaf_ok` additionally pins the numeric payloads inside the machine ranges
the Rust types impose by construction (`usize` lengths, `i64` values,
dyadic `f64` payloads). -/

/-- A frame `write_value` encodes and the parser maps back to itself:
non-composite, with its `usize`/`i64` payloads in the ranges every value
of the Rust types inhabits and its `f64` payload a finite-decimal (e.g.
dyadic) rational, as every finite `f64` value is. -/
def leaf_ok : Frame → Bool
  | .string d => decide (d.length < 2 ^ 64)
  | .integer i => decide (-(2 ^ 63) ≤ i ∧ i < 2 ^ 63)
  | .boolean _ => true
  | .null => true
  | .double q => dec_finite q
  | .error d => decide (d.length < 2 ^ 64)
  | _ => false

/-- Frames the encoder/decoder pair round-trips: a leaf, or a flat Array,
or a flat Map with evenly many entries (the declared pair count is the
half-length, so an odd entry list loses its last entry on the wire). -/
def rt_ok : Frame → Bool
  | .array es => decide (es.length < 2 ^ 64) && es.all leaf_ok
  | .map es => decide (es.length % 2 = 0) && decide (es.length / 2 < 2 ^ 64) && es.all leaf_ok
  | f => leaf_ok f

/-! ## Decimal rendering/parsing lemmas -/

theorem nat_digits_go_mem (fuel n : Nat) (hn : n < 10 ^ fuel) :
    ∀ b ∈ nat_digits_go fuel n, 48 ≤ b ∧ b ≤ 57 := by
  induction fuel generalizing n with
  | zero => simp [nat_digits_go]
  | succ fuel ih =>
    intro b hb
    rw [nat_digits_go] at hb
    by_cases h : n < 10
    · simp [h] at hb
      omega
    · rw [if_neg h] at hb
      rcases List.mem_append.mp hb with h1 | h2
      · exact ih (n / 10) (Nat.div_lt_of_lt_mul (by rw [pow_succ] at hn; omega)) b h1
      · have := Nat.mod_lt n (y := 10) (by omega)
        simp at h2
        omega

theorem nat_digits_mem (n : Nat) : ∀ b ∈ nat_digits n, 48 ≤ b ∧ b ≤ 57 := by
  refine nat_digits_go_mem (n + 1) n ?_
  calc n < 2 ^ n * 2 := by have := Nat.lt_two_pow n; omega
    _ ≤ 10 ^ n * 10 := Nat.mul_le_mul (Nat.pow_le_pow_left (by omega) n) (by omega)
    _ = 10 ^ (n + 1) := (pow_succ 10 n).symm

theorem nat_digits_go_ne_nil (fuel n : Nat) : nat_digits_go (fuel + 1) n ≠ [] := by
  rw [nat_digits_go]
  split <;> simp

theorem dec_digits_go_append (fuel n : Nat) (hn : n < 10 ^ fuel) :
    ∀ (acc : Nat) (l : List Nat),
      dec_digits_go acc (nat_digits_go fuel n ++ l) =
        dec_digits_go (acc * 10 ^ (nat_digits_go fuel n).length + n) l := by
  induction fuel generalizing n with
  | zero =>
    intro acc l
    have : n = 0 := by omega
    simp [nat_digits_go, this]
  | succ fuel ih =>
    intro acc l
    by_cases h : n < 10
    · rw [nat_digits_go, if_pos h, List.singleton_append]
      show dec_digits_go acc ((48 + n) :: l) = _
      rw [dec_digits_go, if_pos (by omega)]
      have h48 : 48 + n - 48 = n := by omega
      rw [h48]
      norm_num
    · rw [nat_digits_go, if_neg h]
      have hrec : n / 10 < 10 ^ fuel :=
        Nat.div_lt_of_lt_mul (by rw [pow_succ] at hn; omega)
      rw [List.append_assoc, List.singleton_append, ih (n / 10) hrec acc ((48 + n % 10) :: l)]
      rw [dec_digits_go, if_pos (by omega)]
      have h48 : 48 + n % 10 - 48 = n % 10 := by omega
      rw [h48]
      congr 1
      have expand : ∀ X : Nat, (acc * X + n / 10) * 10 + n % 10 = acc * (X * 10) + n := by
        intro X
        have h10 : n / 10 * 10 + n % 10 = n := by omega
        calc (acc * X + n / 10) * 10 + n % 10
            = acc * (X * 10) + (n / 10 * 10 + n % 10) := by ring
          _ = acc * (X * 10) + n := by rw [h10]
      simp only [List.length_append, List.length_cons, List.length_nil, pow_succ]
      exact expand _

theorem dec_digits_nat_digits (n : Nat) : dec_digits (nat_digits n) = some n := by
  have hne : nat_digits n ≠ [] := nat_digits_go_ne_nil n n
  have hn : n < 10 ^ (n + 1) := by
    calc n < 2 ^ n * 2 := by have := Nat.lt_two_pow n; omega
      _ ≤ 10 ^ n * 10 := Nat.mul_le_mul (Nat.pow_le_pow_left (by omega) n) (by omega)
      _ = 10 ^ (n + 1) := (pow_succ 10 n).symm
  have hmain := dec_digits_go_append (n + 1) n hn 0 []
  rw [List.append_nil] at hmain
  rcases hcons : nat_digits n with _ | ⟨b, bs⟩
  · exact absurd hcons hne
  · show dec_digits_go 0 (b :: bs) = some n
    rw [← hcons]
    show dec_digits_go 0 (nat_digits_go (n + 1) n) = some n
    rw [hmain]
    simp [dec_digits_go]

theorem nat_digits_head_digit (n : Nat) :
    ∃ b bs, nat_digits n = b :: bs ∧ 48 ≤ b ∧ b ≤ 57 := by
  rcases hcons : nat_digits n with _ | ⟨b, bs⟩
  · exact absurd hcons (nat_digits_go_ne_nil n n)
  · exact ⟨b, bs, rfl, nat_digits_mem n b (by rw [hcons]; exact List.mem_cons_self b bs)⟩

theorem atoi_usize_cons (b : Nat) (r : List Nat) :
    atoi_usize (b :: r) =
      if b = 43 then (dec_digits r).bind (fun v => if v < 2 ^ 64 then some v else none)
      else if b = 45 then (dec_digits r).bind (fun v => if v = 0 then some 0 else none)
      else (dec_digits (b :: r)).bind (fun v => if v < 2 ^ 64 then some v else none) := rfl

theorem atoi_i64_cons (b : Nat) (r : List Nat) :
    atoi_i64 (b :: r) =
      if b = 43 then (dec_digits r).bind (fun v => if v < 2 ^ 63 then some (v : Int) else none)
      else if b = 45 then
        (dec_digits r).bind (fun v => if v ≤ 2 ^ 63 then some (-(v : Int)) else none)
      else (dec_digits (b :: r)).bind (fun v => if v < 2 ^ 63 then some (v : Int) else none) := rfl

theorem atoi_usize_nat_digits (n : Nat) (hn : n < 2 ^ 64) :
    atoi_usize (nat_digits n) = some n := by
  obtain ⟨b, bs, hcons, hb1, hb2⟩ := nat_digits_head_digit n
  rw [hcons, atoi_usize_cons]
  rw [if_neg (by omega), if_neg (by omega), ← hcons, dec_digits_nat_digits n]
  simp only [Option.some_bind]
  rw [if_pos hn]

theorem atoi_i64_int_digits (i : Int) (h1 : -(2 ^ 63) ≤ i) (h2 : i < 2 ^ 63) :
    atoi_i64 (int_digits i) = some i := by
  unfold int_digits
  by_cases hneg : i < 0
  · rw [if_pos hneg, atoi_i64_cons]
    rw [if_neg (by omega), if_pos rfl, dec_digits_nat_digits]
    have hle : (-i).toNat ≤ 2 ^ 63 := by omega
    simp only [Option.some_bind, if_pos hle]
    congr 1
    omega
  · rw [if_neg hneg]
    obtain ⟨b, bs, hcons, hb1, hb2⟩ := nat_digits_head_digit i.toNat
    rw [hcons, atoi_i64_cons]
    rw [if_neg (by omega), if_neg (by omega), ← hcons, dec_digits_nat_digits]
    simp only [Option.some_bind]
    rw [if_pos (by omega)]
    congr 1
    omega

/-! ## Double wire-format lemmas -/

theorem nat_lt_ten_pow (n : Nat) : n < 10 ^ (n + 1) := by
  calc n < 2 ^ n * 2 := by have := Nat.lt_two_pow n; omega
    _ ≤ 10 ^ n * 10 := Nat.mul_le_mul (Nat.pow_le_pow_left (by omega) n) (by omega)
    _ = 10 ^ (n + 1) := (pow_succ 10 n).symm

theorem nat_digits_is_digit (n : Nat) : ∀ x ∈ nat_digits n, is_digit x = true := by
  intro x hx
  have := nat_digits_mem n x hx
  simp only [is_digit, decide_eq_true_eq]
  omega

theorem pad_digits_mem (k m : Nat) : ∀ x ∈ pad_digits k m, 48 ≤ x ∧ x ≤ 57 := by
  intro x hx
  unfold pad_digits at hx
  rcases List.mem_append.mp hx with h | h
  · have := List.eq_of_mem_replicate h
    omega
  · exact nat_digits_mem m x h

theorem pad_digits_is_digit (k m : Nat) : ∀ x ∈ pad_digits k m, is_digit x = true := by
  intro x hx
  have := pad_digits_mem k m x hx
  simp only [is_digit, decide_eq_true_eq]
  omega

theorem fmt_core_mem (n den k : Nat) : ∀ x ∈ fmt_core n den k, x = 46 ∨ (48 ≤ x ∧ x ≤ 57) := by
  intro x hx
  unfold fmt_core at hx
  split at hx
  · exact .inr (nat_digits_mem _ x hx)
  · rcases List.mem_append.mp hx with h | h
    · exact .inr (nat_digits_mem _ x h)
    · rcases List.mem_cons.mp h with h' | h'
      · exact .inl h'
      · exact .inr (pad_digits_mem _ _ x h')

theorem fmt_f64_mem (q : ℚ) : ∀ x ∈ fmt_f64 q, x = 45 ∨ x = 46 ∨ (48 ≤ x ∧ x ≤ 57) := by
  intro x hx
  unfold fmt_f64 at hx
  rcases List.mem_append.mp hx with h | h
  · split at h
    · simp at h
      exact .inl h
    · simp at h
  · rcases fmt_core_mem _ _ _ x h with h' | h'
    · exact .inr (.inl h')
    · exact .inr (.inr h')

theorem fmt_f64_ne13 (q : ℚ) : ∀ x ∈ fmt_f64 q, x ≠ 13 := by
  intro x hx
  rcases fmt_f64_mem q x hx with h | h | h <;> omega

theorem fmt_f64_ascii (q : ℚ) : ∀ x ∈ fmt_f64 q, x < 128 := by
  intro x hx
  rcases fmt_f64_mem q x hx with h | h | h <;> omega

theorem utf8_go_ascii (fuel : Nat) :
    ∀ s : List Nat, s.length ≤ fuel → (∀ b ∈ s, b < 128) →
      ∃ cs, utf8_decode_go fuel s = some cs := by
  induction fuel with
  | zero =>
    intro s hlen h
    have hnil : s = [] := List.eq_nil_of_length_eq_zero (by omega)
    subst hnil
    exact ⟨[], rfl⟩
  | succ fuel ih =>
    intro s hlen h
    cases s with
    | nil => exact ⟨[], rfl⟩
    | cons b bs =>
      obtain ⟨cs, hcs⟩ := ih bs (by simp at hlen; omega)
        (fun x hx => h x (List.mem_cons_of_mem b hx))
      refine ⟨Char.ofNat b :: cs, ?_⟩
      rw [utf8_decode_go, if_pos (h b (List.mem_cons_self b bs)), hcs]
      rfl

theorem takeWhile_append_all (p : Nat → Bool) (l m : List Nat) (h : ∀ x ∈ l, p x = true) :
    (l ++ m).takeWhile p = l ++ m.takeWhile p := by
  induction l with
  | nil => simp
  | cons a l' ih =>
    have ha : p a = true := h a (List.mem_cons_self a l')
    simp only [List.cons_append, List.takeWhile_cons, ha, if_true]
    rw [ih (fun x hx => h x (List.mem_cons_of_mem a hx))]

theorem dropWhile_append_all (p : Nat → Bool) (l m : List Nat) (h : ∀ x ∈ l, p x = true) :
    (l ++ m).dropWhile p = m.dropWhile p := by
  induction l with
  | nil => simp
  | cons a l' ih =>
    have ha : p a = true := h a (List.mem_cons_self a l')
    simp only [List.cons_append, List.dropWhile_cons, ha, if_true]
    exact ih (fun x hx => h x (List.mem_cons_of_mem a hx))

theorem takeWhile_all (l : List Nat) (h : ∀ x ∈ l, is_digit x = true) :
    l.takeWhile is_digit = l := by
  have := takeWhile_append_all is_digit l [] h
  simpa using this

theorem dropWhile_all (l : List Nat) (h : ∀ x ∈ l, is_digit x = true) :
    l.dropWhile is_digit = [] := by
  have := dropWhile_append_all is_digit l [] h
  simpa using this

theorem foldl_digits_go (fuel : Nat) :
    ∀ n : Nat, n < 10 ^ fuel → ∀ acc : Nat,
      (nat_digits_go fuel n).foldl (fun a b => a * 10 + (b - 48)) acc =
        acc * 10 ^ (nat_digits_go fuel n).length + n := by
  induction fuel with
  | zero =>
    intro n hn acc
    have : n = 0 := by omega
    simp [nat_digits_go, this]
  | succ fuel ih =>
    intro n hn acc
    by_cases h : n < 10
    · rw [nat_digits_go, if_pos h]
      simp only [List.foldl_cons, List.foldl_nil, List.length_cons, List.length_nil]
      have h48 : 48 + n - 48 = n := by omega
      rw [h48]
      norm_num
    · rw [nat_digits_go, if_neg h]
      have hrec : n / 10 < 10 ^ fuel :=
        Nat.div_lt_of_lt_mul (by rw [pow_succ] at hn; omega)
      rw [List.foldl_append, ih (n / 10) hrec acc]
      simp only [List.foldl_cons, List.foldl_nil, List.length_append, List.length_cons,
        List.length_nil]
      have h48 : 48 + n % 10 - 48 = n % 10 := by omega
      rw [h48]
      have expand : ∀ X : Nat, (acc * X + n / 10) * 10 + n % 10 = acc * (X * 10) + n := by
        intro X
        have h10 : n / 10 * 10 + n % 10 = n := by omega
        calc (acc * X + n / 10) * 10 + n % 10
            = acc * (X * 10) + (n / 10 * 10 + n % 10) := by ring
          _ = acc * (X * 10) + n := by rw [h10]
      rw [show (nat_digits_go fuel (n / 10)).length + 0 + 1 =
        (nat_digits_go fuel (n / 10)).length + 1 from by omega, pow_succ]
      exact expand _

theorem foldl_nat_digits (n acc : Nat) :
    (nat_digits n).foldl (fun a b => a * 10 + (b - 48)) acc =
      acc * 10 ^ (nat_digits n).length + n :=
  foldl_digits_go (n + 1) n (nat_lt_ten_pow n) acc

theorem dec_foldl_digits (n : Nat) : dec_foldl (nat_digits n) = n := by
  unfold dec_foldl
  rw [foldl_nat_digits]
  simp

theorem foldl_zeros (z : Nat) :
    ∀ acc : Nat, (List.replicate z 48).foldl (fun a b => a * 10 + (b - 48)) acc =
      acc * 10 ^ z := by
  induction z with
  | zero => intro acc; simp
  | succ z ih =>
    intro acc
    rw [List.replicate_succ]
    simp only [List.foldl_cons]
    rw [show acc * 10 + (48 - 48) = acc * 10 from by omega, ih (acc * 10), pow_succ]
    ring

theorem nat_digits_go_length_le (fuel : Nat) :
    ∀ n k : Nat, 0 < k → n < 10 ^ k → (nat_digits_go fuel n).length ≤ k := by
  induction fuel with
  | zero => intro n k hk _; simp [nat_digits_go]
  | succ fuel ih =>
    intro n k hk hn
    rw [nat_digits_go]
    by_cases h : n < 10
    · rw [if_pos h]
      simpa using hk
    · rw [if_neg h]
      have hk2 : 2 ≤ k := by
        by_contra hc
        have hk1 : k = 1 := by omega
        subst hk1
        simp at hn
        omega
      have hdiv : n / 10 < 10 ^ (k - 1) := by
        refine Nat.div_lt_of_lt_mul ?_
        have h10 : (10 : Nat) * 10 ^ (k - 1) = 10 ^ k := by
          rw [← pow_succ']
          congr 1
          omega
        omega
      have := ih (n / 10) (k - 1) (by omega) hdiv
      simp only [List.length_append, List.length_cons, List.length_nil]
      omega

theorem nat_digits_length_le (n k : Nat) (hk : 0 < k) (hn : n < 10 ^ k) :
    (nat_digits n).length ≤ k :=
  nat_digits_go_length_le (n + 1) n k hk hn

theorem pad_digits_length (k m : Nat) (hk : 0 < k) (hm : m < 10 ^ k) :
    (pad_digits k m).length = k := by
  have := nat_digits_length_le m k hk hm
  unfold pad_digits
  simp only [List.length_append, List.length_replicate]
  omega

theorem dec_foldl_fmt (I F k : Nat) (hk : 0 < k) (hF : F < 10 ^ k) :
    dec_foldl (nat_digits I ++ pad_digits k F) = I * 10 ^ k + F := by
  unfold dec_foldl pad_digits
  rw [List.foldl_append, List.foldl_append, foldl_nat_digits, foldl_zeros, foldl_nat_digits]
  simp only [Nat.zero_mul, Nat.zero_add]
  have hLF : (nat_digits F).length ≤ k := nat_digits_length_le F k hk hF
  rw [mul_assoc, ← pow_add, show k - (nat_digits F).length + (nat_digits F).length = k from by
    omega]

theorem rat_core_eval (ip fr : List Nat) (hip : ∀ x ∈ ip, is_digit x = true)
    (hfr : ∀ x ∈ fr, is_digit x = true) (hipne : ip ≠ []) :
    rat_core (ip ++ 46 :: fr) =
      some (((dec_foldl (ip ++ fr) : Nat) : ℚ) / (10 : ℚ) ^ fr.length) := by
  have htake : (ip ++ 46 :: fr).takeWhile is_digit = ip := by
    rw [takeWhile_append_all is_digit ip _ hip]
    simp [List.takeWhile_cons, is_digit]
  have hdrop : (ip ++ 46 :: fr).dropWhile is_digit = 46 :: fr := by
    rw [dropWhile_append_all is_digit ip _ hip]
    simp [List.dropWhile_cons, is_digit]
  have htakef : fr.takeWhile is_digit = fr := takeWhile_all fr hfr
  have hdropf : fr.dropWhile is_digit = [] := dropWhile_all fr hfr
  unfold rat_core
  rw [htake, hdrop]
  simp only [htakef, hdropf]
  rw [if_neg (by simp [hipne])]

theorem rat_core_eval_int (ip : List Nat) (hip : ∀ x ∈ ip, is_digit x = true)
    (hipne : ip ≠ []) : rat_core ip = some ((dec_foldl ip : Nat) : ℚ) := by
  have htake : ip.takeWhile is_digit = ip := takeWhile_all ip hip
  have hdrop : ip.dropWhile is_digit = [] := dropWhile_all ip hip
  unfold rat_core
  rw [htake, hdrop]
  rw [if_neg (by simp [hipne])]
  simp

theorem rat_of_decimal_cons (b : Nat) (r : List Nat) :
    rat_of_decimal (b :: r) =
      if b = 43 then rat_core r
      else if b = 45 then (rat_core r).map Neg.neg
      else rat_core (b :: r) := rfl

theorem fmt_core_head (n den k : Nat) :
    ∃ b bs, fmt_core n den k = b :: bs ∧ 48 ≤ b ∧ b ≤ 57 := by
  unfold fmt_core
  split
  · obtain ⟨b, bs, hcons, h1, h2⟩ := nat_digits_head_digit (n * 10 ^ k / den)
    exact ⟨b, bs, hcons, h1, h2⟩
  · obtain ⟨b, bs, hcons, h1, h2⟩ := nat_digits_head_digit (n * 10 ^ k / den / 10 ^ k)
    exact ⟨b, bs ++ 46 :: pad_digits k (n * 10 ^ k / den % 10 ^ k), by rw [hcons]; rfl, h1, h2⟩

theorem rat_core_fmt_core (n den k : Nat) (hden : 0 < den) (hdvd : den ∣ 10 ^ k) :
    rat_core (fmt_core n den k) = some ((n : ℚ) / (den : ℚ)) := by
  have hcancel : n * 10 ^ k / den * den = n * 10 ^ k := Nat.div_mul_cancel (hdvd.mul_left n)
  by_cases hk : k = 0
  · subst hk
    have hden1 : den = 1 := Nat.dvd_one.mp (by simpa using hdvd)
    subst hden1
    have hfc : fmt_core n 1 0 = nat_digits n := by simp [fmt_core]
    rw [hfc, rat_core_eval_int (nat_digits n) (nat_digits_is_digit n) (nat_digits_go_ne_nil n n)]
    rw [dec_foldl_digits n]
    simp
  · have hkpos : 0 < k := by omega
    have hfc : fmt_core n den k =
        nat_digits (n * 10 ^ k / den / 10 ^ k) ++
          46 :: pad_digits k (n * 10 ^ k / den % 10 ^ k) := by
      rw [fmt_core, if_neg hk]
    have hFlt : n * 10 ^ k / den % 10 ^ k < 10 ^ k := Nat.mod_lt _ (by positivity)
    rw [hfc, rat_core_eval _ _ (nat_digits_is_digit _) (pad_digits_is_digit k _)
      (nat_digits_go_ne_nil _ _)]
    rw [dec_foldl_fmt _ _ k hkpos hFlt, Nat.div_add_mod' (n * 10 ^ k / den) (10 ^ k)]
    rw [pad_digits_length k _ hkpos hFlt]
    congr 1
    rw [div_eq_div_iff (by positivity) (by positivity)]
    exact_mod_cast hcancel

theorem rat_of_decimal_fmt (q : ℚ) (h : dec_finite q = true) :
    rat_of_decimal (fmt_f64 q) = some q := by
  have hden : q.den = 2 ^ mult 2 q.den * 5 ^ mult 5 q.den := by
    simpa [dec_finite] using h
  set a := mult 2 q.den with ha
  set b := mult 5 q.den with hb
  have hdvd : q.den ∣ 10 ^ max a b := by
    refine ⟨2 ^ (max a b - a) * 5 ^ (max a b - b), ?_⟩
    rw [hden]
    have h2 : a + (max a b - a) = max a b := by omega
    have h5 : b + (max a b - b) = max a b := by omega
    calc (10 : Nat) ^ max a b
        = 2 ^ max a b * 5 ^ max a b := by rw [show (10 : Nat) = 2 * 5 from rfl, mul_pow]
      _ = (2 ^ a * 2 ^ (max a b - a)) * (5 ^ b * 5 ^ (max a b - b)) := by
          rw [← pow_add, ← pow_add, h2, h5]
      _ = 2 ^ a * 5 ^ b * (2 ^ (max a b - a) * 5 ^ (max a b - b)) := by ring
  have hcore := rat_core_fmt_core q.num.natAbs q.den (max a b) q.den_pos hdvd
  unfold fmt_f64
  rw [← ha, ← hb]
  by_cases hneg : q.num < 0
  · rw [if_pos hneg]
    show rat_of_decimal (45 :: fmt_core q.num.natAbs q.den (max a b)) = some q
    rw [rat_of_decimal_cons, if_neg (by omega), if_pos rfl, hcore]
    rw [Option.map_some']
    congr 1
    have h2 : ((q.num.natAbs : Nat) : ℤ) = -q.num := by omega
    rw [show ((q.num.natAbs : Nat) : ℚ) = -((q.num : ℤ) : ℚ) from by
      rw [← Int.cast_natCast, h2, Int.cast_neg]]
    rw [neg_div, neg_neg]
    exact Rat.num_div_den q
  · rw [if_neg hneg, List.nil_append]
    obtain ⟨c, cs, hcons, hc1, hc2⟩ := fmt_core_head q.num.natAbs q.den (max a b)
    rw [hcons, rat_of_decimal_cons, if_neg (by omega), if_neg (by omega), ← hcons, hcore]
    congr 1
    have h2 : ((q.num.natAbs : Nat) : ℤ) = q.num := by omega
    rw [show ((q.num.natAbs : Nat) : ℚ) = ((q.num : ℤ) : ℚ) from by rw [← Int.cast_natCast, h2]]
    exact Rat.num_div_den q

theorem parse_double_fmt (q : ℚ) (h : dec_finite q = true) :
    parse_double (fmt_f64 q) = .ok (.double q) := by
  obtain ⟨cs, hcs⟩ := utf8_go_ascii (fmt_f64 q).length (fmt_f64 q) le_rfl (fmt_f64_ascii q)
  unfold parse_double
  rw [show utf8_decode (fmt_f64 q) = some ⟨cs⟩ from by unfold utf8_decode; rw [hcs]; rfl]
  rw [rat_of_decimal_fmt q h]

/-! ## `get_line` lemmas -/

theorem get_line_append (l : List Nat) (rest : List Nat) (hl : ∀ b ∈ l, b ≠ 13) :
    get_line (l ++ 13 :: 10 :: rest) = some (l, rest) := by
  induction l with
  | nil => simp [get_line]
  | cons a l' ih =>
    have ha : a ≠ 13 := hl a (List.mem_cons_self a l')
    have ih' := ih (fun b hb => hl b (List.mem_cons_of_mem a hb))
    cases l' with
    | nil =>
      simp only [List.nil_append] at ih' ⊢
      rw [List.cons_append, List.nil_append]
      rw [get_line, if_neg (by simp [ha])]
      rw [ih']
    | cons a2 l'' =>
      rw [List.cons_append, List.cons_append]
      rw [get_line, if_neg (by simp [ha])]
      rw [List.cons_append] at ih'
      rw [ih']

theorem get_line_none_of_no13 (p l : List Nat) (hl : ∀ b ∈ l, b ≠ 13)
    (hp : ∃ s, p ++ s = l ++ [13]) : get_line p = none := by
  induction p generalizing l with
  | nil => rfl
  | cons b p' ih =>
    cases p' with
    | nil => rfl
    | cons c p'' =>
      obtain ⟨s, hs⟩ := hp
      cases l with
      | nil =>
        exfalso
        simp only [List.nil_append] at hs
        have := congrArg List.length hs
        simp at this
      | cons a l' =>
        rw [List.cons_append, List.cons_append] at hs
        have hba : b = a := (List.cons.injEq _ _ _ _).mp hs |>.1
        have htl : (c :: p'') ++ s = l' ++ [13] := (List.cons.injEq _ _ _ _).mp hs |>.2
        have hb : b ≠ 13 := by
          rw [hba]; exact hl a (List.mem_cons_self a l')
        rw [get_line, if_neg (by simp [hb])]
        rw [ih l' (fun x hx => hl x (List.mem_cons_of_mem a hx)) ⟨s, htl⟩]

theorem int_digits_ne13 (i : Int) : ∀ b ∈ int_digits i, b ≠ 13 := by
  intro b hb
  unfold int_digits at hb
  split at hb
  · rcases List.mem_cons.mp hb with h | h
    · omega
    · have := nat_digits_mem _ b h
      omega
  · have := nat_digits_mem _ b hb
    omega

theorem nat_digits_ne13 (n : Nat) : ∀ b ∈ nat_digits n, b ≠ 13 := by
  intro b hb
  have := nat_digits_mem n b hb
  omega

theorem parse_string_some (len : Nat) (line rest : List Nat) (h : atoi_usize line = some len) :
    parse_string line rest =
      if rest.length < len + 2 then .err .incomplete
      else .ok (.string (rest.take len), rest.drop (len + 2)) := by
  unfold parse_string
  rw [h]
  rfl

theorem parse_error_some (len : Nat) (line rest : List Nat) (h : atoi_usize line = some len) :
    parse_error line rest =
      if rest.length < len + 2 then .err .incomplete
      else .ok (.error (rest.take len), rest.drop (len + 2)) := by
  unfold parse_error
  rw [h]
  rfl

theorem parse_write_value (f : Frame) (h : leaf_ok f = true) (w rest : List Nat)
    (hw : write_value f = some w) (fuel : Nat) :
    parse (fuel + 1) (w ++ rest) = .ok (f, rest) := by
  cases f with
  | string d =>
    have hlen : d.length < 2 ^ 64 := by simpa [leaf_ok] using h
    simp only [write_value, Option.some.injEq] at hw
    subst hw
    have hshape : (36 :: nat_digits d.length ++ 13 :: 10 :: d ++ [13, 10]) ++ rest =
        (36 :: nat_digits d.length) ++ 13 :: 10 :: (d ++ 13 :: 10 :: rest) := by
      simp
    rw [hshape, parse, get_line_append _ _ (by
      intro b hb
      rcases List.mem_cons.mp hb with h | h
      · omega
      · exact nat_digits_ne13 _ b h)]
    show parse_string (nat_digits d.length) (d ++ 13 :: 10 :: rest) = .ok (.string d, rest)
    rw [parse_string_some d.length _ _ (atoi_usize_nat_digits d.length hlen)]
    have hlen2 : (d ++ 13 :: 10 :: rest).length = d.length + 2 + rest.length := by
      simp
      omega
    rw [if_neg (by omega)]
    have htake : (d ++ 13 :: 10 :: rest).take d.length = d := List.take_left' rfl
    have hdrop : (d ++ 13 :: 10 :: rest).drop (d.length + 2) = rest := by
      have : d ++ 13 :: 10 :: rest = (d ++ [13, 10]) ++ rest := by simp
      rw [this]
      exact List.drop_left' (by simp)
    rw [htake, hdrop]
  | integer i =>
    have hrange : -(2 ^ 63) ≤ i ∧ i < 2 ^ 63 := by simpa [leaf_ok] using h
    simp only [write_value, Option.some.injEq] at hw
    subst hw
    have hshape : (37 :: int_digits i ++ [13, 10]) ++ rest =
        (37 :: int_digits i) ++ 13 :: 10 :: rest := by simp
    rw [hshape, parse, get_line_append _ _ (by
      intro b hb
      rcases List.mem_cons.mp hb with h | h
      · omega
      · exact int_digits_ne13 i b h)]
    have hpi : parse_integer (int_digits i) = .ok (.integer i) := by
      unfold parse_integer
      rw [atoi_i64_int_digits i hrange.1 hrange.2]
      rfl
    show pbind (parse_integer (int_digits i)) (fun f => .ok (f, rest)) = .ok (.integer i, rest)
    rw [hpi]
    rfl
  | boolean b =>
    cases b
    · simp only [write_value, Bool.false_eq_true, if_false, Option.some.injEq] at hw
      subst hw
      have hshape : (94 :: 48 :: [13, 10]) ++ rest = ([94, 48]) ++ 13 :: 10 :: rest := by simp
      rw [hshape, parse, get_line_append _ _ (by intro b hb; fin_cases hb <;> omega)]
      rfl
    · simp only [write_value, if_true, Option.some.injEq] at hw
      subst hw
      have hshape : (94 :: 49 :: [13, 10]) ++ rest = ([94, 49]) ++ 13 :: 10 :: rest := by simp
      rw [hshape, parse, get_line_append _ _ (by intro b hb; fin_cases hb <;> omega)]
      rfl
  | null =>
    simp only [write_value, Option.some.injEq] at hw
    subst hw
    have hshape : [45, 13, 10] ++ rest = ([45]) ++ 13 :: 10 :: rest := by simp
    rw [hshape, parse, get_line_append _ _ (by intro b hb; fin_cases hb; omega)]
    rfl
  | double q =>
    have hq : dec_finite q = true := by simpa [leaf_ok] using h
    simp only [write_value, Option.some.injEq] at hw
    subst hw
    have hshape : (46 :: fmt_f64 q ++ [13, 10]) ++ rest =
        (46 :: fmt_f64 q) ++ 13 :: 10 :: rest := by simp
    rw [hshape, parse, get_line_append _ _ (by
      intro b hb
      rcases List.mem_cons.mp hb with h' | h'
      · omega
      · exact fmt_f64_ne13 q b h')]
    show pbind (parse_double (fmt_f64 q)) (fun f => .ok (f, rest)) = .ok (.double q, rest)
    rw [parse_double_fmt q hq]
    rfl
  | array es => simp [leaf_ok] at h
  | map es => simp [leaf_ok] at h
  | error d =>
    have hlen : d.length < 2 ^ 64 := by simpa [leaf_ok] using h
    simp only [write_value, Option.some.injEq] at hw
    subst hw
    have hshape : (33 :: nat_digits d.length ++ 13 :: 10 :: d ++ [13, 10]) ++ rest =
        (33 :: nat_digits d.length) ++ 13 :: 10 :: (d ++ 13 :: 10 :: rest) := by
      simp
    rw [hshape, parse, get_line_append _ _ (by
      intro b hb
      rcases List.mem_cons.mp hb with h | h
      · omega
      · exact nat_digits_ne13 _ b h)]
    show parse_error (nat_digits d.length) (d ++ 13 :: 10 :: rest) = .ok (.error d, rest)
    rw [parse_error_some d.length _ _ (atoi_usize_nat_digits d.length hlen)]
    have hlen2 : (d ++ 13 :: 10 :: rest).length = d.length + 2 + rest.length := by
      simp
      omega
    rw [if_neg (by omega)]
    have htake : (d ++ 13 :: 10 :: rest).take d.length = d := List.take_left' rfl
    have hdrop : (d ++ 13 :: 10 :: rest).drop (d.length + 2) = rest := by
      have : d ++ 13 :: 10 :: rest = (d ++ [13, 10]) ++ rest := by simp
      rw [this]
      exact List.drop_left' (by simp)
    rw [htake, hdrop]

theorem write_values_cons (f : Frame) (fs : List Frame) (ws : List Nat)
    (h : write_values (f :: fs) = some ws) :
    ∃ w ws', write_value f = some w ∧ write_values fs = some ws' ∧ ws = w ++ ws' := by
  rw [write_values] at h
  cases hv : write_value f with
  | none => rw [hv] at h; exact absurd h (by simp)
  | some w =>
    cases hvs : write_values fs with
    | none => rw [hv, hvs] at h; exact absurd h (by simp)
    | some ws' =>
      rw [hv, hvs] at h
      exact ⟨w, ws', rfl, rfl, (Option.some.injEq _ _ ▸ h).symm⟩

theorem parse_elems_write (fuel : Nat) (es : List Frame) (hall : es.all leaf_ok = true) :
    ∀ (ws rest : List Nat), write_values es = some ws →
      parse_elems (parse (fuel + 1)) es.length (ws ++ rest) = .ok (es, rest) := by
  induction es with
  | nil =>
    intro ws rest hw
    simp only [write_values, Option.some.injEq] at hw
    subst hw
    rfl
  | cons f fs ih =>
    intro ws rest hw
    obtain ⟨w, ws', hv, hvs, hsplit⟩ := write_values_cons f fs ws hw
    subst hsplit
    have hallf : leaf_ok f = true ∧ fs.all leaf_ok = true := by
      simpa [List.all_cons, Bool.and_eq_true] using hall
    have h1 := parse_write_value f hallf.1 w (ws' ++ rest) hv fuel
    have h2 := ih hallf.2 ws' rest hvs
    rw [List.length_cons, parse_elems, List.append_assoc]
    simp only [h1, h2, pbind_ok]

theorem parse_pairs_write (fuel : Nat) :
    ∀ (es : List Frame), es.all leaf_ok = true → es.length % 2 = 0 →
      ∀ (ws rest : List Nat), write_values es = some ws →
        parse_pairs (parse (fuel + 1)) (es.length / 2) (ws ++ rest) = .ok (es, rest)
  | [] => by
    intro _ _ ws rest hw
    simp only [write_values, Option.some.injEq] at hw
    subst hw
    rfl
  | [x] => by
    intro _ heven
    simp at heven
  | k :: v :: es' => by
    intro hall heven ws rest hw
    obtain ⟨wk, wvs, hvk, hvvs, hsplit⟩ := write_values_cons k (v :: es') ws hw
    obtain ⟨wv, ws', hvv, hvs', hsplit'⟩ := write_values_cons v es' wvs hvvs
    subst hsplit'
    subst hsplit
    have hallk : leaf_ok k = true ∧ leaf_ok v = true ∧ es'.all leaf_ok = true := by
      simpa [List.all_cons, Bool.and_eq_true, and_assoc] using hall
    have heven' : es'.length % 2 = 0 := by
      simp only [List.length_cons] at heven
      omega
    have hhalf : (k :: v :: es').length / 2 = es'.length / 2 + 1 := by
      simp only [List.length_cons]
      omega
    have ih := parse_pairs_write fuel es' hallk.2.2 heven' ws' rest hvs'
    have h1 := parse_write_value k hallk.1 wk (wv ++ (ws' ++ rest)) hvk fuel
    have h2 := parse_write_value v hallk.2.1 wv (ws' ++ rest) hvv fuel
    rw [hhalf, parse_pairs, List.append_assoc, List.append_assoc]
    simp only [h1, h2, ih, pbind_ok]

theorem parse_bytes_write_frame (f : Frame) (h : rt_ok f = true) (w : List Nat)
    (hw : write_frame f = some w) : parse_bytes w = .ok (f, []) := by
  cases f with
  | array es =>
    have hb : es.length < 2 ^ 64 ∧ es.all leaf_ok = true := by
      simpa [rt_ok, Bool.and_eq_true] using h
    rw [write_frame] at hw
    cases hws : write_values es with
    | none => rw [hws] at hw; exact absurd hw (by simp)
    | some ws =>
      rw [hws] at hw
      have hwe : w = 42 :: nat_digits es.length ++ 13 :: 10 :: ws := by
        simpa using hw.symm
      obtain ⟨m, hm⟩ : ∃ m, w.length = m + 1 := ⟨w.length - 1, by rw [hwe]; simp⟩
      rw [parse_bytes, hm, hwe]
      have hshape : 42 :: nat_digits es.length ++ 13 :: 10 :: ws =
          (42 :: nat_digits es.length) ++ 13 :: 10 :: ws := by simp
      rw [hshape, parse, get_line_append _ _ (by
        intro b hb'
        rcases List.mem_cons.mp hb' with h' | h'
        · omega
        · exact nat_digits_ne13 _ b h')]
      show (pbind (ok_or (atoi_usize (nat_digits es.length))) fun len =>
          pbind (parse_elems (parse (m + 1)) len ws) fun p =>
            (.ok (.array p.1, p.2) : PRes ParseFrameError (Frame × List Nat))) =
        .ok (.array es, [])
      rw [atoi_usize_nat_digits es.length hb.1]
      have hpe := parse_elems_write m es hb.2 ws [] hws
      rw [List.append_nil] at hpe
      simp only [ok_or_some, pbind_ok, hpe]
  | map es =>
    have hb : es.length % 2 = 0 ∧ es.length / 2 < 2 ^ 64 ∧ es.all leaf_ok = true := by
      simpa [rt_ok, Bool.and_eq_true, and_assoc] using h
    rw [write_frame] at hw
    cases hws : write_values es with
    | none => rw [hws] at hw; exact absurd hw (by simp)
    | some ws =>
      rw [hws] at hw
      have hwe : w = 35 :: nat_digits (es.length / 2) ++ 13 :: 10 :: ws := by
        simpa using hw.symm
      obtain ⟨m, hm⟩ : ∃ m, w.length = m + 1 := ⟨w.length - 1, by rw [hwe]; simp⟩
      rw [parse_bytes, hm, hwe]
      have hshape : 35 :: nat_digits (es.length / 2) ++ 13 :: 10 :: ws =
          (35 :: nat_digits (es.length / 2)) ++ 13 :: 10 :: ws := by simp
      rw [hshape, parse, get_line_append _ _ (by
        intro b hb'
        rcases List.mem_cons.mp hb' with h' | h'
        · omega
        · exact nat_digits_ne13 _ b h')]
      show (pbind (ok_or (atoi_usize (nat_digits (es.length / 2)))) fun len =>
          pbind (parse_pairs (parse (m + 1)) len ws) fun p =>
            (.ok (.map p.1, p.2) : PRes ParseFrameError (Frame × List Nat))) =
        .ok (.map es, [])
      rw [atoi_usize_nat_digits (es.length / 2) hb.2.1]
      have hpe := parse_pairs_write m es hb.2.2 hb.1 ws [] hws
      rw [List.append_nil] at hpe
      simp only [ok_or_some, pbind_ok, hpe]
  | string d =>
    have := parse_write_value (.string d) (by simpa [rt_ok, leaf_ok] using h) w [] hw w.length
    rwa [List.append_nil] at this
  | integer i =>
    have := parse_write_value (.integer i) (by simpa [rt_ok, leaf_ok] using h) w [] hw w.length
    rwa [List.append_nil] at this
  | boolean b =>
    have := parse_write_value (.boolean b) (by simp [leaf_ok]) w [] hw w.length
    rwa [List.append_nil] at this
  | null =>
    have := parse_write_value .null (by simp [leaf_ok]) w [] hw w.length
    rwa [List.append_nil] at this
  | double q =>
    have := parse_write_value (.double q) (by simpa [rt_ok, leaf_ok] using h) w [] hw w.length
    rwa [List.append_nil] at this
  | error d =>
    have := parse_write_value (.error d) (by simpa [rt_ok, leaf_ok] using h) w [] hw w.length
    rwa [List.append_nil] at this

/-! ## Truncation: every strict prefix of a valid encoding is `Incomplete` -/

theorem get_line_prefix_none (l body p t : List Nat) (hl : ∀ b ∈ l, b ≠ 13)
    (hpt : p ++ t = l ++ 13 :: 10 :: body) (hlen : p.length ≤ l.length + 1) :
    get_line p = none := by
  apply get_line_none_of_no13 p l hl
  have hp : p = (l ++ [13]).take p.length := by
    have h2 : (l ++ 13 :: 10 :: body).take p.length = (l ++ [13]).take p.length := by
      rw [show l ++ 13 :: 10 :: body = (l ++ [13]) ++ 10 :: body from by simp,
        List.take_append_of_le_length
          (by simp only [List.length_append, List.length_cons, List.length_nil]; omega)]
    rw [← h2, ← hpt, List.take_left]
  refine ⟨(l ++ [13]).drop p.length, ?_⟩
  nth_rewrite 1 [hp]
  exact List.take_append_drop _ _

theorem split_header (l body p t : List Nat) (hpt : p ++ t = l ++ 13 :: 10 :: body) :
    p.length ≤ l.length + 1 ∨ ∃ q, p = l ++ 13 :: 10 :: q ∧ q ++ t = body := by
  by_cases h : p.length ≤ l.length + 1
  · exact .inl h
  · right
    have hx : p ++ t = (l ++ [13, 10]) ++ body := by rw [hpt]; simp
    rcases List.append_eq_append_iff.mp hx with ⟨a', ha1, ha2⟩ | ⟨c', hc1, hc2⟩
    · have hlen := congrArg List.length ha1
      simp at hlen
      have ha'nil : a' = [] := List.length_eq_zero.mp (by omega)
      subst ha'nil
      rw [List.append_nil] at ha1
      refine ⟨[], by rw [← ha1], ?_⟩
      simp [ha2]
    · exact ⟨c', by rw [hc1]; simp, hc2.symm⟩

theorem parse_prefix_value (f : Frame) (h : leaf_ok f = true) (w : List Nat)
    (hw : write_value f = some w) :
    ∀ (p t : List Nat), p ++ t = w → t ≠ [] → ∀ fuel, parse (fuel + 1) p = .err .incomplete := by
  cases f with
  | string d =>
    intro p t hpt ht fuel
    simp only [write_value, Option.some.injEq] at hw
    subst hw
    rw [show 36 :: nat_digits d.length ++ 13 :: 10 :: d ++ [13, 10] =
      (36 :: nat_digits d.length) ++ 13 :: 10 :: (d ++ [13, 10]) from by simp] at hpt
    have hl : ∀ b ∈ 36 :: nat_digits d.length, b ≠ 13 := by
      intro b hb
      rcases List.mem_cons.mp hb with h' | h'
      · omega
      · exact nat_digits_ne13 _ b h'
    rcases split_header _ _ _ _ hpt with hin | ⟨q, hp, hq⟩
    · rw [parse, get_line_prefix_none _ _ _ _ hl hpt hin]
      rfl
    · subst hp
      rw [parse, get_line_append _ _ hl]
      have hlen : d.length < 2 ^ 64 := by simpa [leaf_ok] using h
      show parse_string (nat_digits d.length) q = .err .incomplete
      rw [parse_string_some d.length _ _ (atoi_usize_nat_digits d.length hlen)]
      have hql := congrArg List.length hq
      simp at hql
      have htl : t.length ≠ 0 := fun h0 => ht (List.length_eq_zero.mp h0)
      rw [if_pos (by omega)]
  | error d =>
    intro p t hpt ht fuel
    simp only [write_value, Option.some.injEq] at hw
    subst hw
    rw [show 33 :: nat_digits d.length ++ 13 :: 10 :: d ++ [13, 10] =
      (33 :: nat_digits d.length) ++ 13 :: 10 :: (d ++ [13, 10]) from by simp] at hpt
    have hl : ∀ b ∈ 33 :: nat_digits d.length, b ≠ 13 := by
      intro b hb
      rcases List.mem_cons.mp hb with h' | h'
      · omega
      · exact nat_digits_ne13 _ b h'
    rcases split_header _ _ _ _ hpt with hin | ⟨q, hp, hq⟩
    · rw [parse, get_line_prefix_none _ _ _ _ hl hpt hin]
      rfl
    · subst hp
      rw [parse, get_line_append _ _ hl]
      have hlen : d.length < 2 ^ 64 := by simpa [leaf_ok] using h
      show parse_error (nat_digits d.length) q = .err .incomplete
      rw [parse_error_some d.length _ _ (atoi_usize_nat_digits d.length hlen)]
      have hql := congrArg List.length hq
      simp at hql
      have htl : t.length ≠ 0 := fun h0 => ht (List.length_eq_zero.mp h0)
      rw [if_pos (by omega)]
  | integer i =>
    intro p t hpt ht fuel
    simp only [write_value, Option.some.injEq] at hw
    subst hw
    rw [show 37 :: int_digits i ++ [13, 10] =
      (37 :: int_digits i) ++ 13 :: 10 :: ([] : List Nat) from by simp] at hpt
    have hl : ∀ b ∈ 37 :: int_digits i, b ≠ 13 := by
      intro b hb
      rcases List.mem_cons.mp hb with h' | h'
      · omega
      · exact int_digits_ne13 i b h'
    rcases split_header _ _ _ _ hpt with hin | ⟨q, hp, hq⟩
    · rw [parse, get_line_prefix_none _ _ _ _ hl hpt hin]
      rfl
    · exact absurd (List.append_eq_nil.mp hq).2 ht
  | boolean b =>
    intro p t hpt ht fuel
    cases b
    · simp only [write_value, Bool.false_eq_true, if_false, Option.some.injEq] at hw
      subst hw
      rw [show 94 :: 48 :: [13, 10] = [94, 48] ++ 13 :: 10 :: ([] : List Nat) from by simp] at hpt
      have hl : ∀ x ∈ [94, 48], x ≠ 13 := by intro x hx; fin_cases hx <;> omega
      rcases split_header _ _ _ _ hpt with hin | ⟨q, hp, hq⟩
      · rw [parse, get_line_prefix_none _ _ _ _ hl hpt hin]
        rfl
      · exact absurd (List.append_eq_nil.mp hq).2 ht
    · simp only [write_value, if_true, Option.some.injEq] at hw
      subst hw
      rw [show 94 :: 49 :: [13, 10] = [94, 49] ++ 13 :: 10 :: ([] : List Nat) from by simp] at hpt
      have hl : ∀ x ∈ [94, 49], x ≠ 13 := by intro x hx; fin_cases hx <;> omega
      rcases split_header _ _ _ _ hpt with hin | ⟨q, hp, hq⟩
      · rw [parse, get_line_prefix_none _ _ _ _ hl hpt hin]
        rfl
      · exact absurd (List.append_eq_nil.mp hq).2 ht
  | null =>
    intro p t hpt ht fuel
    simp only [write_value, Option.some.injEq] at hw
    subst hw
    rw [show [45, 13, 10] = [45] ++ 13 :: 10 :: ([] : List Nat) from by simp] at hpt
    have hl : ∀ x ∈ [45], x ≠ 13 := by intro x hx; fin_cases hx; omega
    rcases split_header _ _ _ _ hpt with hin | ⟨q, hp, hq⟩
    · rw [parse, get_line_prefix_none _ _ _ _ hl hpt hin]
      rfl
    · exact absurd (List.append_eq_nil.mp hq).2 ht
  | double q =>
    intro p t hpt ht fuel
    simp only [write_value, Option.some.injEq] at hw
    subst hw
    rw [show 46 :: fmt_f64 q ++ [13, 10] =
      (46 :: fmt_f64 q) ++ 13 :: 10 :: ([] : List Nat) from by simp] at hpt
    have hl : ∀ x ∈ 46 :: fmt_f64 q, x ≠ 13 := by
      intro x hx
      rcases List.mem_cons.mp hx with h' | h'
      · omega
      · exact fmt_f64_ne13 q x h'
    rcases split_header _ _ _ _ hpt with hin | ⟨q0, hp, hq0⟩
    · rw [parse, get_line_prefix_none _ _ _ _ hl hpt hin]
      rfl
    · exact absurd (List.append_eq_nil.mp hq0).2 ht
  | array es => simp [leaf_ok] at h
  | map es => simp [leaf_ok] at h

theorem parse_elems_prefix (fuel : Nat) (es : List Frame) (hall : es.all leaf_ok = true) :
    ∀ ws, write_values es = some ws → ∀ p t, p ++ t = ws → t ≠ [] →
      parse_elems (parse (fuel + 1)) es.length p = .err .incomplete := by
  induction es with
  | nil =>
    intro ws hw p t hpt ht
    simp only [write_values, Option.some.injEq] at hw
    subst hw
    exact absurd (List.append_eq_nil.mp hpt).2 ht
  | cons f fs ih =>
    intro ws hw p t hpt ht
    obtain ⟨w, ws', hv, hvs, hsplit⟩ := write_values_cons f fs ws hw
    subst hsplit
    have hallf : leaf_ok f = true ∧ fs.all leaf_ok = true := by
      simpa [List.all_cons, Bool.and_eq_true] using hall
    rcases List.append_eq_append_iff.mp hpt with ⟨a', ha1, ha2⟩ | ⟨c', hc1, hc2⟩
    · by_cases ha : a' = []
      · subst ha
        rw [List.append_nil] at ha1
        rw [List.nil_append] at ha2
        rw [List.length_cons, parse_elems, ← ha1]
        have hok := parse_write_value f hallf.1 w [] hv fuel
        rw [List.append_nil] at hok
        have hrec := ih hallf.2 ws' hvs [] ws' (by simp) (ha2 ▸ ht)
        rw [hok]
        simp only [pbind_ok]
        rw [hrec]
        rfl
      · have hpre := parse_prefix_value f hallf.1 w hv p a' ha1.symm ha fuel
        rw [List.length_cons, parse_elems, hpre]
        rfl
    · subst hc1
      have hok := parse_write_value f hallf.1 w c' hv fuel
      have hrec := ih hallf.2 ws' hvs c' t hc2.symm ht
      rw [List.length_cons, parse_elems, hok]
      simp only [pbind_ok]
      rw [hrec]
      rfl

theorem parse_pairs_prefix (fuel : Nat) :
    ∀ (es : List Frame), es.all leaf_ok = true → es.length % 2 = 0 →
      ∀ ws, write_values es = some ws → ∀ p t, p ++ t = ws → t ≠ [] →
        parse_pairs (parse (fuel + 1)) (es.length / 2) p = .err .incomplete
  | [] => by
    intro _ _ ws hw p t hpt ht
    simp only [write_values, Option.some.injEq] at hw
    subst hw
    exact absurd (List.append_eq_nil.mp hpt).2 ht
  | [x] => by
    intro _ heven
    simp at heven
  | k :: v :: es' => by
    intro hall heven ws hw p t hpt ht
    obtain ⟨wk, wvs, hvk, hvvs, hsplit⟩ := write_values_cons k (v :: es') ws hw
    obtain ⟨wv, ws', hvv, hvs', hsplit'⟩ := write_values_cons v es' wvs hvvs
    subst hsplit'
    subst hsplit
    have hallk : leaf_ok k = true ∧ leaf_ok v = true ∧ es'.all leaf_ok = true := by
      simpa [List.all_cons, Bool.and_eq_true, and_assoc] using hall
    have heven' : es'.length % 2 = 0 := by
      simp only [List.length_cons] at heven
      omega
    have hhalf : (k :: v :: es').length / 2 = es'.length / 2 + 1 := by
      simp only [List.length_cons]
      omega
    rw [hhalf, parse_pairs]
    rcases List.append_eq_append_iff.mp hpt with ⟨a', ha1, ha2⟩ | ⟨c', hc1, hc2⟩
    · by_cases ha : a' = []
      · subst ha
        rw [List.append_nil] at ha1
        rw [List.nil_append] at ha2
        rw [← ha1]
        have hok := parse_write_value k hallk.1 wk [] hvk fuel
        rw [List.append_nil] at hok
        rw [hok]
        simp only [pbind_ok]
        have hwvne : wv ≠ [] := by
          intro hwv
          subst hwv
          cases v <;> simp [write_value] at hvv
        have hpre := parse_prefix_value v hallk.2.1 wv hvv [] wv (by simp) hwvne fuel
        rw [hpre]
        rfl
      · have hpre := parse_prefix_value k hallk.1 wk hvk p a' ha1.symm ha fuel
        rw [hpre]
        rfl
    · subst hc1
      rcases List.append_eq_append_iff.mp hc2.symm with ⟨b', hb1, hb2⟩ | ⟨d', hd1, hd2⟩
      · by_cases hb : b' = []
        · subst hb
          rw [List.append_nil] at hb1
          rw [List.nil_append] at hb2
          rw [← hb1]
          have hok' := parse_write_value k hallk.1 wk wv hvk fuel
          rw [hok']
          simp only [pbind_ok]
          have hokv := parse_write_value v hallk.2.1 wv [] hvv fuel
          rw [List.append_nil] at hokv
          rw [hokv]
          simp only [pbind_ok]
          have hrec := parse_pairs_prefix fuel es' hallk.2.2 heven' ws' hvs' [] ws' (by simp)
            (hb2 ▸ ht)
          rw [hrec]
          rfl
        · have hok' := parse_write_value k hallk.1 wk c' hvk fuel
          rw [hok']
          simp only [pbind_ok]
          have hpre := parse_prefix_value v hallk.2.1 wv hvv c' b' hb1.symm hb fuel
          rw [hpre]
          rfl
      · subst hd1
        have hok' := parse_write_value k hallk.1 wk (wv ++ d') hvk fuel
        have hokv := parse_write_value v hallk.2.1 wv d' hvv fuel
        rw [hok']
        simp only [pbind_ok]
        rw [hokv]
        simp only [pbind_ok]
        have hrec := parse_pairs_prefix fuel es' hallk.2.2 heven' ws' hvs' d' t hd2.symm ht
        rw [hrec]
        rfl

theorem parse_bytes_prefix (f : Frame) (h : rt_ok f = true) (w : List Nat)
    (hw : write_frame f = some w) (p t : List Nat) (hpt : p ++ t = w) (ht : t ≠ []) :
    parse_bytes p = .err .incomplete := by
  cases f with
  | array es =>
    have hb : es.length < 2 ^ 64 ∧ es.all leaf_ok = true := by
      simpa [rt_ok, Bool.and_eq_true] using h
    rw [write_frame] at hw
    cases hws : write_values es with
    | none => rw [hws] at hw; exact absurd hw (by simp)
    | some ws =>
      rw [hws] at hw
      have hwe : w = 42 :: nat_digits es.length ++ 13 :: 10 :: ws := by
        simpa using hw.symm
      subst hwe
      rw [show 42 :: nat_digits es.length ++ 13 :: 10 :: ws =
        (42 :: nat_digits es.length) ++ 13 :: 10 :: ws from by simp] at hpt
      have hl : ∀ b ∈ 42 :: nat_digits es.length, b ≠ 13 := by
        intro b hb'
        rcases List.mem_cons.mp hb' with h' | h'
        · omega
        · exact nat_digits_ne13 _ b h'
      rcases split_header _ _ _ _ hpt with hin | ⟨q, hp, hq⟩
      · rw [parse_bytes, parse, get_line_prefix_none _ _ _ _ hl hpt hin]
        rfl
      · subst hp
        rw [parse_bytes, parse, get_line_append _ _ hl]
        show (pbind (ok_or (atoi_usize (nat_digits es.length))) fun len =>
            pbind (parse_elems (parse ((42 :: nat_digits es.length) ++ 13 :: 10 :: q).length)
              len q) fun pr =>
              (.ok (.array pr.1, pr.2) : PRes ParseFrameError (Frame × List Nat))) =
          .err .incomplete
        rw [atoi_usize_nat_digits es.length hb.1]
        simp only [ok_or_some, pbind_ok]
        obtain ⟨m, hm⟩ : ∃ m, ((42 :: nat_digits es.length) ++ 13 :: 10 :: q).length = m + 1 :=
          ⟨(nat_digits es.length ++ 13 :: 10 :: q).length, rfl⟩
        rw [hm, parse_elems_prefix m es hb.2 ws hws q t hq ht]
        rfl
  | map es =>
    have hb : es.length % 2 = 0 ∧ es.length / 2 < 2 ^ 64 ∧ es.all leaf_ok = true := by
      simpa [rt_ok, Bool.and_eq_true, and_assoc] using h
    rw [write_frame] at hw
    cases hws : write_values es with
    | none => rw [hws] at hw; exact absurd hw (by simp)
    | some ws =>
      rw [hws] at hw
      have hwe : w = 35 :: nat_digits (es.length / 2) ++ 13 :: 10 :: ws := by
        simpa using hw.symm
      subst hwe
      rw [show 35 :: nat_digits (es.length / 2) ++ 13 :: 10 :: ws =
        (35 :: nat_digits (es.length / 2)) ++ 13 :: 10 :: ws from by simp] at hpt
      have hl : ∀ b ∈ 35 :: nat_digits (es.length / 2), b ≠ 13 := by
        intro b hb'
        rcases List.mem_cons.mp hb' with h' | h'
        · omega
        · exact nat_digits_ne13 _ b h'
      rcases split_header _ _ _ _ hpt with hin | ⟨q, hp, hq⟩
      · rw [parse_bytes, parse, get_line_prefix_none _ _ _ _ hl hpt hin]
        rfl
      · subst hp
        rw [parse_bytes, parse, get_line_append _ _ hl]
        show (pbind (ok_or (atoi_usize (nat_digits (es.length / 2)))) fun len =>
            pbind (parse_pairs
              (parse ((35 :: nat_digits (es.length / 2)) ++ 13 :: 10 :: q).length) len q)
              fun pr =>
              (.ok (.map pr.1, pr.2) : PRes ParseFrameError (Frame × List Nat))) =
          .err .incomplete
        rw [atoi_usize_nat_digits (es.length / 2) hb.2.1]
        simp only [ok_or_some, pbind_ok]
        obtain ⟨m, hm⟩ :
            ∃ m, ((35 :: nat_digits (es.length / 2)) ++ 13 :: 10 :: q).length = m + 1 :=
          ⟨(nat_digits (es.length / 2) ++ 13 :: 10 :: q).length, rfl⟩
        rw [hm, parse_pairs_prefix m es hb.2.2 hb.1 ws hws q t hq ht]
        rfl
  | string d =>
    exact parse_prefix_value (.string d) (by simpa [rt_ok, leaf_ok] using h) w hw p t hpt ht
      p.length
  | integer i =>
    exact parse_prefix_value (.integer i) (by simpa [rt_ok, leaf_ok] using h) w hw p t hpt ht
      p.length
  | boolean b =>
    exact parse_prefix_value (.boolean b) (by simp [leaf_ok]) w hw p t hpt ht p.length
  | null =>
    exact parse_prefix_value .null (by simp [leaf_ok]) w hw p t hpt ht p.length
  | double q =>
    exact parse_prefix_value (.double q) (by simpa [rt_ok, leaf_ok] using h) w hw p t hpt ht
      p.length
  | error d =>
    exact parse_prefix_value (.error d) (by simpa [rt_ok, leaf_ok] using h) w hw p t hpt ht
      p.length

/-! ## Consumption: a successful parse hands back a strict suffix -/

theorem pbind_eq_ok {ε α β : Type} {x : PRes ε α} {f : α → PRes ε β} {b : β}
    (h : pbind x f = .ok b) : ∃ a, x = .ok a ∧ f a = .ok b := by
  cases x with
  | ok a => exact ⟨a, rfl, h⟩
  | err e => simp [pbind] at h
  | panicked => simp [pbind] at h
  | outOfFuel => simp [pbind] at h

theorem get_line_suffix :
    ∀ (bs l r : List Nat), get_line bs = some (l, r) →
      ∃ c, bs = c ++ r ∧ c.length = l.length + 2 := by
  intro bs
  induction bs with
  | nil => intro l r h; simp [get_line] at h
  | cons b bs1 ih =>
    intro l r h
    cases bs1 with
    | nil => simp [get_line] at h
    | cons c bs' =>
      rw [get_line] at h
      by_cases hcr : b = 13 ∧ c = 10
      · rw [if_pos hcr] at h
        obtain ⟨h1, h2⟩ := Prod.mk.injEq .. ▸ (Option.some.injEq _ _ ▸ h)
        subst h2
        exact ⟨[b, c], by simp, by simp [← h1]⟩
      · rw [if_neg hcr] at h
        cases hrec : get_line (c :: bs') with
        | none => rw [hrec] at h; simp at h
        | some lr =>
          obtain ⟨line, rest⟩ := lr
          rw [hrec] at h
          obtain ⟨h1, h2⟩ := Prod.mk.injEq .. ▸ (Option.some.injEq _ _ ▸ h)
          obtain ⟨c1, hc1, hc1len⟩ := ih line rest hrec
          subst h2
          refine ⟨b :: c1, ?_, ?_⟩
          · rw [List.cons_append, ← hc1]
          · simp [hc1len, ← h1]

theorem parse_elems_consumed (p1 : List Nat → PRes ParseFrameError (Frame × List Nat))
    (hp1 : ∀ bs f rest, p1 bs = .ok (f, rest) → ∃ c, bs = c ++ rest) :
    ∀ (n : Nat) (bs : List Nat) (fs : List Frame) (rest : List Nat),
      parse_elems p1 n bs = .ok (fs, rest) → ∃ c, bs = c ++ rest := by
  intro n
  induction n with
  | zero =>
    intro bs fs rest h
    rw [parse_elems] at h
    obtain ⟨h1, h2⟩ := Prod.mk.injEq .. ▸ (PRes.ok.injEq _ _ ▸ h)
    exact ⟨[], by simp [h2]⟩
  | succ n ih =>
    intro bs fs rest h
    rw [parse_elems] at h
    obtain ⟨⟨f1, r1⟩, hx, h2⟩ := pbind_eq_ok h
    obtain ⟨⟨fs2, r2⟩, hy, h3⟩ := pbind_eq_ok h2
    obtain ⟨h4, h5⟩ := Prod.mk.injEq .. ▸ (PRes.ok.injEq _ _ ▸ h3)
    obtain ⟨c1, hc1⟩ := hp1 bs f1 r1 hx
    obtain ⟨c2, hc2⟩ := ih r1 fs2 r2 hy
    have h5' : r2 = rest := h5
    exact ⟨c1 ++ c2, by rw [hc1, hc2, h5']; simp⟩

theorem parse_pairs_consumed (p1 : List Nat → PRes ParseFrameError (Frame × List Nat))
    (hp1 : ∀ bs f rest, p1 bs = .ok (f, rest) → ∃ c, bs = c ++ rest) :
    ∀ (n : Nat) (bs : List Nat) (fs : List Frame) (rest : List Nat),
      parse_pairs p1 n bs = .ok (fs, rest) → ∃ c, bs = c ++ rest := by
  intro n
  induction n with
  | zero =>
    intro bs fs rest h
    rw [parse_pairs] at h
    obtain ⟨h1, h2⟩ := Prod.mk.injEq .. ▸ (PRes.ok.injEq _ _ ▸ h)
    exact ⟨[], by simp [h2]⟩
  | succ n ih =>
    intro bs fs rest h
    rw [parse_pairs] at h
    obtain ⟨⟨k1, r1⟩, hx, h2⟩ := pbind_eq_ok h
    obtain ⟨⟨v1, r2⟩, hy, h3⟩ := pbind_eq_ok h2
    obtain ⟨⟨fs3, r3⟩, hz, h4⟩ := pbind_eq_ok h3
    obtain ⟨h5, h6⟩ := Prod.mk.injEq .. ▸ (PRes.ok.injEq _ _ ▸ h4)
    obtain ⟨c1, hc1⟩ := hp1 bs k1 r1 hx
    obtain ⟨c2, hc2⟩ := hp1 r1 v1 r2 hy
    obtain ⟨c3, hc3⟩ := ih r2 fs3 r3 hz
    have h6' : r3 = rest := h6
    exact ⟨c1 ++ (c2 ++ c3), by rw [hc1, hc2, hc3, h6']; simp⟩

theorem parse_consumed :
    ∀ (fuel : Nat) (bs : List Nat) (f : Frame) (rest : List Nat),
      parse fuel bs = .ok (f, rest) → ∃ c, bs = c ++ rest ∧ c ≠ [] := by
  intro fuel
  induction fuel with
  | zero =>
    intro bs f rest h
    simp [parse] at h
  | succ fuel ih =>
    intro bs f rest h
    rw [parse] at h
    obtain ⟨⟨line, r⟩, hgl', hrest⟩ := pbind_eq_ok h
    have hgl : get_line bs = some (line, r) := by
      cases hg : get_line bs with
      | none => rw [hg] at hgl'; simp [incomplete_or] at hgl'
      | some lr =>
        rw [hg] at hgl'
        simp only [incomplete_or_some, PRes.ok.injEq] at hgl'
        rw [hgl']
    obtain ⟨c0, hbs, hc0len⟩ := get_line_suffix bs line r hgl
    have hc0ne : c0 ≠ [] := by
      intro hc
      rw [hc] at hc0len
      simp at hc0len
    have hsuff : (∃ c1, r = c1 ++ rest) → ∃ c, bs = c ++ rest ∧ c ≠ [] := by
      rintro ⟨c1, hc1⟩
      refine ⟨c0 ++ c1, by rw [hbs, hc1]; simp, ?_⟩
      intro hc
      rcases List.append_eq_nil.mp hc with ⟨h1, _⟩
      exact hc0ne h1
    cases line with
    | nil => simp at hrest
    | cons t content =>
      simp only at hrest
      split_ifs at hrest with h36 h37 h42 h94 h45 h35 h46 h33
      · -- parse_string
        unfold parse_string at hrest
        obtain ⟨len, _, hif⟩ := pbind_eq_ok hrest
        split_ifs at hif with hlt
        obtain ⟨_, h5⟩ := Prod.mk.injEq .. ▸ (PRes.ok.injEq _ _ ▸ hif)
        exact hsuff ⟨r.take (len + 2), by rw [← h5, List.take_append_drop]⟩
      · -- integer
        obtain ⟨fi, _, heq⟩ := pbind_eq_ok hrest
        obtain ⟨_, h5⟩ := Prod.mk.injEq .. ▸ (PRes.ok.injEq _ _ ▸ heq)
        have h5' : r = rest := h5
        exact hsuff ⟨[], by rw [h5', List.nil_append]⟩
      · -- array
        obtain ⟨len, _, h2⟩ := pbind_eq_ok hrest
        obtain ⟨⟨fs2, r2⟩, hpe, heq⟩ := pbind_eq_ok h2
        obtain ⟨_, h5⟩ := Prod.mk.injEq .. ▸ (PRes.ok.injEq _ _ ▸ heq)
        have hp1 : ∀ bs' f' rest', parse fuel bs' = .ok (f', rest') → ∃ c, bs' = c ++ rest' :=
          fun bs' f' rest' hx => (ih bs' f' rest' hx).imp (fun c hc => hc.1)
        obtain ⟨c1, hc1⟩ := parse_elems_consumed (parse fuel) hp1 len r fs2 r2 hpe
        have h5' : r2 = rest := h5
        exact hsuff ⟨c1, by rw [hc1, h5']⟩
      · -- boolean
        obtain ⟨fi, _, heq⟩ := pbind_eq_ok hrest
        obtain ⟨_, h5⟩ := Prod.mk.injEq .. ▸ (PRes.ok.injEq _ _ ▸ heq)
        have h5' : r = rest := h5
        exact hsuff ⟨[], by rw [h5', List.nil_append]⟩
      · -- null
        obtain ⟨fi, _, heq⟩ := pbind_eq_ok hrest
        obtain ⟨_, h5⟩ := Prod.mk.injEq .. ▸ (PRes.ok.injEq _ _ ▸ heq)
        have h5' : r = rest := h5
        exact hsuff ⟨[], by rw [h5', List.nil_append]⟩
      · -- map
        obtain ⟨len, _, h2⟩ := pbind_eq_ok hrest
        obtain ⟨⟨fs2, r2⟩, hpp, heq⟩ := pbind_eq_ok h2
        obtain ⟨_, h5⟩ := Prod.mk.injEq .. ▸ (PRes.ok.injEq _ _ ▸ heq)
        have hp1 : ∀ bs' f' rest', parse fuel bs' = .ok (f', rest') → ∃ c, bs' = c ++ rest' :=
          fun bs' f' rest' hx => (ih bs' f' rest' hx).imp (fun c hc => hc.1)
        obtain ⟨c1, hc1⟩ := parse_pairs_consumed (parse fuel) hp1 len r fs2 r2 hpp
        have h5' : r2 = rest := h5
        exact hsuff ⟨c1, by rw [hc1, h5']⟩
      · -- double
        obtain ⟨fi, _, heq⟩ := pbind_eq_ok hrest
        obtain ⟨_, h5⟩ := Prod.mk.injEq .. ▸ (PRes.ok.injEq _ _ ▸ heq)
        have h5' : r = rest := h5
        exact hsuff ⟨[], by rw [h5', List.nil_append]⟩
      · -- error
        unfold parse_error at hrest
        obtain ⟨len, _, hif⟩ := pbind_eq_ok hrest
        split_ifs at hif with hlt
        obtain ⟨_, h5⟩ := Prod.mk.injEq .. ▸ (PRes.ok.injEq _ _ ▸ hif)
        exact hsuff ⟨r.take (len + 2), by rw [← h5, List.take_append_drop]⟩

/-! ## Connection-level lemmas -/

theorem parse_frame_of_ok (buf : List Nat) (f : Frame) (rest : List Nat)
    (h : parse_bytes buf = .ok (f, rest)) : parse_frame buf = .ok (some f, rest) := by
  unfold parse_frame
  rw [h]

theorem parse_frame_of_incomplete (buf : List Nat)
    (h : parse_bytes buf = .err .incomplete) : parse_frame buf = .ok (none, buf) := by
  unfold parse_frame
  rw [h]

/-! ## The fuel artifact is unreachable at the entry point -/

theorem pbind_ne_oof {ε α β : Type} {x : PRes ε α} {f : α → PRes ε β}
    (hx : x ≠ .outOfFuel) (hf : ∀ a, x = .ok a → f a ≠ .outOfFuel) :
    pbind x f ≠ .outOfFuel := by
  cases x with
  | ok a => exact hf a rfl
  | err e => simp [pbind]
  | panicked => simp [pbind]
  | outOfFuel => exact absurd rfl hx

theorem parse_string_ne_oof (line rest : List Nat) : parse_string line rest ≠ .outOfFuel := by
  unfold parse_string
  refine pbind_ne_oof ?_ ?_
  · cases atoi_usize line <;> simp [ok_or]
  · intro len _
    split <;> simp

theorem parse_error_ne_oof (line rest : List Nat) : parse_error line rest ≠ .outOfFuel := by
  unfold parse_error
  refine pbind_ne_oof ?_ ?_
  · cases atoi_usize line <;> simp [ok_or]
  · intro len _
    split <;> simp

theorem parse_integer_ne_oof (line : List Nat) : parse_integer line ≠ .outOfFuel := by
  unfold parse_integer
  refine pbind_ne_oof ?_ (fun a _ => by simp)
  cases atoi_i64 line <;> simp [ok_or]

theorem parse_boolean_ne_oof (line : List Nat) : parse_boolean line ≠ .outOfFuel := by
  unfold parse_boolean
  split
  · simp
  · cases line with
    | nil => simp
    | cons v r =>
      show (if v = 48 then (.ok (.boolean false) : PRes ParseFrameError Frame)
        else if v = 49 then .ok (.boolean true) else .err .invalidFormat) ≠ .outOfFuel
      split_ifs <;> simp

theorem parse_null_ne_oof (line : List Nat) : parse_null line ≠ .outOfFuel := by
  unfold parse_null
  split <;> simp

theorem parse_double_ne_oof (line : List Nat) : parse_double line ≠ .outOfFuel := by
  unfold parse_double
  cases utf8_decode line with
  | none => simp
  | some s => cases rat_of_decimal line <;> simp

theorem parse_elems_ne_oof (p1 : List Nat → PRes ParseFrameError (Frame × List Nat)) (B : Nat)
    (hp1 : ∀ bs, bs.length ≤ B → p1 bs ≠ .outOfFuel)
    (hp1c : ∀ bs f r, p1 bs = .ok (f, r) → ∃ c, bs = c ++ r) :
    ∀ (n : Nat) (bs : List Nat), bs.length ≤ B → parse_elems p1 n bs ≠ .outOfFuel := by
  intro n
  induction n with
  | zero =>
    intro bs hb
    rw [parse_elems]
    simp
  | succ n ih =>
    intro bs hb
    rw [parse_elems]
    refine pbind_ne_oof (hp1 bs hb) ?_
    rintro ⟨f, r⟩ hx
    obtain ⟨c, hc⟩ := hp1c bs f r hx
    have hr : r.length ≤ B := by
      have := congrArg List.length hc
      simp at this
      omega
    exact pbind_ne_oof (ih r hr) (fun a _ => by simp)

theorem parse_pairs_ne_oof (p1 : List Nat → PRes ParseFrameError (Frame × List Nat)) (B : Nat)
    (hp1 : ∀ bs, bs.length ≤ B → p1 bs ≠ .outOfFuel)
    (hp1c : ∀ bs f r, p1 bs = .ok (f, r) → ∃ c, bs = c ++ r) :
    ∀ (n : Nat) (bs : List Nat), bs.length ≤ B → parse_pairs p1 n bs ≠ .outOfFuel := by
  intro n
  induction n with
  | zero =>
    intro bs hb
    rw [parse_pairs]
    simp
  | succ n ih =>
    intro bs hb
    rw [parse_pairs]
    refine pbind_ne_oof (hp1 bs hb) ?_
    rintro ⟨k, r⟩ hx
    obtain ⟨c, hc⟩ := hp1c bs k r hx
    have hr : r.length ≤ B := by
      have := congrArg List.length hc
      simp at this
      omega
    refine pbind_ne_oof (hp1 r hr) ?_
    rintro ⟨v, r2⟩ hy
    obtain ⟨c2, hc2⟩ := hp1c r v r2 hy
    have hr2 : r2.length ≤ B := by
      have := congrArg List.length hc2
      simp at this
      omega
    exact pbind_ne_oof (ih r2 hr2) (fun a _ => by simp)

theorem parse_ne_oof :
    ∀ (fuel : Nat) (bs : List Nat), bs.length < fuel → parse fuel bs ≠ .outOfFuel := by
  intro fuel
  induction fuel with
  | zero =>
    intro bs h
    omega
  | succ fuel ih =>
    intro bs hb
    rw [parse]
    refine pbind_ne_oof ?_ ?_
    · cases get_line bs <;> simp [incomplete_or]
    · rintro ⟨line, r⟩ hlr
      have hgl : get_line bs = some (line, r) := by
        cases hg : get_line bs with
        | none => rw [hg] at hlr; simp [incomplete_or] at hlr
        | some lr =>
          rw [hg] at hlr
          simp only [incomplete_or_some, PRes.ok.injEq] at hlr
          rw [hlr]
      obtain ⟨c0, hbs, hc0⟩ := get_line_suffix bs line r hgl
      have hrlen : r.length + 2 ≤ bs.length := by
        have := congrArg List.length hbs
        simp at this
        omega
      have hp1 : ∀ bs', bs'.length ≤ r.length → parse fuel bs' ≠ .outOfFuel := by
        intro bs' hb'
        exact ih bs' (by omega)
      have hp1c : ∀ bs' f' r', parse fuel bs' = .ok (f', r') → ∃ c, bs' = c ++ r' :=
        fun bs' f' r' hx => (parse_consumed fuel bs' f' r' hx).imp (fun c hc => hc.1)
      cases line with
      | nil => simp
      | cons t content =>
        show (if t = 36 then parse_string content r
          else if t = 37 then pbind (parse_integer content) fun f => .ok (f, r)
          else if t = 42 then
            pbind (ok_or (atoi_usize content)) fun len =>
              pbind (parse_elems (parse fuel) len r) fun p =>
                (.ok (.array p.1, p.2) : PRes ParseFrameError (Frame × List Nat))
          else if t = 94 then pbind (parse_boolean content) fun f => .ok (f, r)
          else if t = 45 then pbind (parse_null content) fun f => .ok (f, r)
          else if t = 35 then
            pbind (ok_or (atoi_usize content)) fun len =>
              pbind (parse_pairs (parse fuel) len r) fun p => .ok (.map p.1, p.2)
          else if t = 46 then pbind (parse_double content) fun f => .ok (f, r)
          else if t = 33 then parse_error content r
          else .err .invalidFormat) ≠ .outOfFuel
        split_ifs
        · exact parse_string_ne_oof content r
        · exact pbind_ne_oof (parse_integer_ne_oof content) (fun a _ => by simp)
        · refine pbind_ne_oof (by cases atoi_usize content <;> simp [ok_or]) ?_
          intro len _
          exact pbind_ne_oof
            (parse_elems_ne_oof (parse fuel) r.length hp1 hp1c len r le_rfl)
            (fun a _ => by simp)
        · exact pbind_ne_oof (parse_boolean_ne_oof content) (fun a _ => by simp)
        · exact pbind_ne_oof (parse_null_ne_oof content) (fun a _ => by simp)
        · refine pbind_ne_oof (by cases atoi_usize content <;> simp [ok_or]) ?_
          intro len _
          exact pbind_ne_oof
            (parse_pairs_ne_oof (parse fuel) r.length hp1 hp1c len r le_rfl)
            (fun a _ => by simp)
        · exact pbind_ne_oof (parse_double_ne_oof content) (fun a _ => by simp)
        · exact parse_error_ne_oof content r
        · simp

/-- The fuel `parse_bytes` supplies can never be exhausted: each recursion
level eats a header of at least two bytes, so the nesting depth is bounded
by the buffer length. -/
theorem parse_bytes_ne_oof (bs : List Nat) : parse_bytes bs ≠ .outOfFuel :=
  parse_ne_oof (bs.length + 1) bs (by omega)

/-! ## Claim theorems -/

/-- C1 counterexample: the round-trip `decode(encode(f)) = f` fails on the
constructible frame `Map [Null]` — the encoder writes pair count
`1 / 2 = 0` followed by the lone entry, and the parser reads back the
different frame `Map []` while leaving the entry's bytes unconsumed. -/
theorem roundtrip_fails_on_odd_map :
    write_frame (.map [.null]) = some [35, 48, 13, 10, 45, 13, 10] ∧
    parse_bytes [35, 48, 13, 10, 45, 13, 10] = .ok (.map [], [45, 13, 10]) ∧
    Frame.map [] ≠ Frame.map [.null] ∧ ([45, 13, 10] : List Nat) ≠ [] :=
  ⟨rfl, rfl, by simp, by simp⟩

/-- C1 (amended): for every frame the encoder actually supports — flat
(`write_frame` panics on composite elements, see C2), with a Map entry
list of even length and with payloads within the Rust types' ranges
(Double payloads decimally finite, as every finite `f64` is) — parsing
the encoding yields exactly the frame back and consumes the whole
output. -/
theorem roundtrip_of_flat_frame (f : Frame) (h : rt_ok f = true) (w : List Nat)
    (hw : write_frame f = some w) : parse_bytes w = .ok (f, []) :=
  parse_bytes_write_frame f h w hw

/-- C1 witness: the spec §8 scenario `Array [Integer 1, String "ab"]`
encodes to `*2\r\n%1\r\n$2\r\nab\r\n` and parses back to itself, and
`Double 1.5` encodes to `.1.5\r\n` and parses back to itself. -/
theorem roundtrip_of_flat_frame_witness :
    rt_ok (.array [.integer 1, .string [97, 98]]) = true ∧
    write_frame (.array [.integer 1, .string [97, 98]]) =
      some [42, 50, 13, 10, 37, 49, 13, 10, 36, 50, 13, 10, 97, 98, 13, 10] ∧
    parse_bytes [42, 50, 13, 10, 37, 49, 13, 10, 36, 50, 13, 10, 97, 98, 13, 10] =
      .ok (.array [.integer 1, .string [97, 98]], []) ∧
    rt_ok (.double (3 / 2)) = true ∧
    write_frame (.double (3 / 2)) = some [46, 49, 46, 53, 13, 10] ∧
    parse_bytes [46, 49, 46, 53, 13, 10] = .ok (.double (3 / 2), []) :=
  ⟨rfl, rfl, roundtrip_of_flat_frame (.array [.integer 1, .string [97, 98]]) rfl _ rfl,
   by with_unfolding_all rfl, by with_unfolding_all rfl,
   roundtrip_of_flat_frame (.double (3 / 2)) (by with_unfolding_all rfl) _
     (by with_unfolding_all rfl)⟩

/-- C2: encoding is *not* total — `write_value`'s catch-all arm is
`unreachable!()` and is reached for every Array or Map element that is
itself an Array or Map, so `write_frame` panics (`none`) on nested
composite frames instead of producing a byte sequence. -/
theorem write_frame_nested_panics :
    write_value (.array [.integer 1]) = none ∧
    write_value (.map [.null, .null]) = none ∧
    write_frame (.array [.array []]) = none ∧
    write_frame (.map [.null, .map []]) = none :=
  ⟨rfl, rfl, rfl, rfl⟩

/-- C3: for every frame the encoder supports (see C1), parsing any strict
prefix of its valid encoding returns `Incomplete` — never `InvalidFormat`,
another error, or a successful parse. -/
theorem truncation_yields_incomplete (f : Frame) (h : rt_ok f = true) (w : List Nat)
    (hw : write_frame f = some w) (p t : List Nat) (hpt : w = p ++ t) (ht : t ≠ []) :
    parse_bytes p = .err .incomplete :=
  parse_bytes_prefix f h w hw p t hpt.symm ht

/-- C3 witness: dropping the final byte of `*2\r\n%1\r\n$2\r\nab\r\n`
leaves a strict prefix that parses as `Incomplete`, and so does dropping
the final byte of the Double encoding `.1.5\r\n`. -/
theorem truncation_yields_incomplete_witness :
    rt_ok (.array [.integer 1, .string [97, 98]]) = true ∧
    write_frame (.array [.integer 1, .string [97, 98]]) =
      some [42, 50, 13, 10, 37, 49, 13, 10, 36, 50, 13, 10, 97, 98, 13, 10] ∧
    [42, 50, 13, 10, 37, 49, 13, 10, 36, 50, 13, 10, 97, 98, 13, 10] =
      [42, 50, 13, 10, 37, 49, 13, 10, 36, 50, 13, 10, 97, 98, 13] ++ [10] ∧
    ([10] : List Nat) ≠ [] ∧
    parse_bytes [42, 50, 13, 10, 37, 49, 13, 10, 36, 50, 13, 10, 97, 98, 13] =
      .err .incomplete ∧
    write_frame (.double (3 / 2)) = some [46, 49, 46, 53, 13, 10] ∧
    parse_bytes [46, 49, 46, 53, 13] = .err .incomplete :=
  ⟨rfl, rfl, rfl, by simp,
   truncation_yields_incomplete (.array [.integer 1, .string [97, 98]]) rfl _ rfl _ _ rfl
     (by simp),
   by with_unfolding_all rfl,
   truncation_yields_incomplete (.double (3 / 2)) (by with_unfolding_all rfl) _
     (by with_unfolding_all rfl) [46, 49, 46, 53, 13] [10] rfl (by simp)⟩

/-- C4 counterexample: on `$2\r\nabXY` the two bytes after the payload are
`X Y`, not `\r\n`, yet `parse` succeeds with `String "ab"` (consuming all
eight bytes) instead of returning `InvalidFormat` — the source skips the
trailer without inspecting it. -/
theorem string_trailer_not_validated :
    parse_bytes [36, 50, 13, 10, 97, 98, 88, 89] = .ok (.string [97, 98], []) ∧
    ((88 : Nat) ≠ 13 ∧ (89 : Nat) ≠ 10) :=
  ⟨rfl, by decide⟩

/-- C4 (amended): when the header of a String (resp. Error) frame declares
length `n` and at least `n + 2` bytes follow the header line, `parse`
succeeds with the `n` payload bytes and skips the two following bytes
whatever they are — the trailer is never validated. -/
theorem parse_skips_trailer_bytes (n : Nat) (hn : n < 2 ^ 64) (body : List Nat)
    (hb : n + 2 ≤ body.length) :
    parse_bytes (36 :: nat_digits n ++ 13 :: 10 :: body) =
      .ok (.string (body.take n), body.drop (n + 2)) ∧
    parse_bytes (33 :: nat_digits n ++ 13 :: 10 :: body) =
      .ok (.error (body.take n), body.drop (n + 2)) := by
  constructor
  · rw [show 36 :: nat_digits n ++ 13 :: 10 :: body =
      (36 :: nat_digits n) ++ 13 :: 10 :: body from by simp]
    rw [parse_bytes, parse, get_line_append _ _ (by
      intro b hb'
      rcases List.mem_cons.mp hb' with h' | h'
      · omega
      · exact nat_digits_ne13 _ b h')]
    show parse_string (nat_digits n) body = .ok (.string (body.take n), body.drop (n + 2))
    rw [parse_string_some n _ _ (atoi_usize_nat_digits n hn), if_neg (by omega)]
  · rw [show 33 :: nat_digits n ++ 13 :: 10 :: body =
      (33 :: nat_digits n) ++ 13 :: 10 :: body from by simp]
    rw [parse_bytes, parse, get_line_append _ _ (by
      intro b hb'
      rcases List.mem_cons.mp hb' with h' | h'
      · omega
      · exact nat_digits_ne13 _ b h')]
    show parse_error (nat_digits n) body = .ok (.error (body.take n), body.drop (n + 2))
    rw [parse_error_some n _ _ (atoi_usize_nat_digits n hn), if_neg (by omega)]

/-- C4 witness: the amended statement at `n = 2`, body `abXY`. -/
theorem parse_skips_trailer_bytes_witness :
    (2 : Nat) < 2 ^ 64 ∧ 2 + 2 ≤ ([97, 98, 88, 89] : List Nat).length ∧
    parse_bytes [36, 50, 13, 10, 97, 98, 88, 89] = .ok (.string [97, 98], []) :=
  ⟨by norm_num, by norm_num,
   (parse_skips_trailer_bytes 2 (by norm_num) [97, 98, 88, 89] (by norm_num)).1⟩

/-- C5: `parse_boolean` maps content `0` to `Boolean false` and `1` to
`Boolean true`, rejects other non-empty content (single-byte or longer)
with `InvalidFormat` — but on *empty* content (`^\r\n`) the length guard
`line.len() > 1` passes and `line[0]` panics with an index out of bounds
instead of returning `InvalidFormat`. -/
theorem parse_boolean_empty_panics :
    parse_bytes [94, 48, 13, 10] = .ok (.boolean false, []) ∧
    parse_bytes [94, 49, 13, 10] = .ok (.boolean true, []) ∧
    parse_bytes [94, 50, 13, 10] = .err .invalidFormat ∧
    parse_bytes [94, 49, 48, 13, 10] = .err .invalidFormat ∧
    parse_bytes [94, 13, 10] = .panicked ∧
    parse_boolean [] = .panicked :=
  ⟨rfl, rfl, rfl, rfl, rfl, rfl⟩

/-- C6: `Connection::parse_frame` drops bytes from the front of the buffer
only when the codec parses a complete frame, and then drops exactly the
consumed prefix; on `Incomplete` it reports "no frame yet" with the buffer
untouched, and on any other parse error it fails with the buffer
untouched. -/
theorem parse_frame_buffer_discipline (buf : List Nat) :
    (∀ f rest, parse_frame buf = .ok (some f, rest) →
      parse_bytes buf = .ok (f, rest) ∧ ∃ consumed, consumed ≠ [] ∧ buf = consumed ++ rest) ∧
    (parse_bytes buf = .err .incomplete → parse_frame buf = .ok (none, buf)) ∧
    (∀ e, e ≠ ParseFrameError.incomplete → parse_bytes buf = .err e →
      parse_frame buf = .err (.frameError e)) := by
  refine ⟨?_, parse_frame_of_incomplete buf, ?_⟩
  · intro f rest h
    have hpb : parse_bytes buf = .ok (f, rest) := by
      unfold parse_frame at h
      cases hp : parse_bytes buf with
      | ok fr =>
        obtain ⟨f1, r1⟩ := fr
        rw [hp] at h
        simp only [PRes.ok.injEq, Prod.mk.injEq, Option.some.injEq] at h
        rw [h.1, h.2]
      | err e =>
        rw [hp] at h
        cases e <;> simp at h
      | panicked => rw [hp] at h; simp at h
      | outOfFuel => rw [hp] at h; simp at h
    obtain ⟨c, hc, hcne⟩ := parse_consumed (buf.length + 1) buf f rest hpb
    exact ⟨hpb, c, hcne, hc⟩
  · intro e he hp
    unfold parse_frame
    rw [hp]
    cases e with
    | incomplete => exact absurd rfl he
    | invalidFormat => rfl
    | utf8Error => rfl
    | parseFloatError => rfl

/-- C6 witness: a buffer holding exactly `%1\r\n` is advanced by all four
bytes; a buffer holding `%1` (incomplete) and one holding `?\r\n`
(malformed) are left untouched. -/
theorem parse_frame_buffer_discipline_witness :
    (parse_bytes [37, 49, 13, 10] = .ok (.integer 1, []) ∧
      ∃ consumed, consumed ≠ [] ∧ [37, 49, 13, 10] = consumed ++ ([] : List Nat)) ∧
    parse_frame [37, 49] = .ok (none, [37, 49]) ∧
    parse_frame [63, 13, 10] = .err (.frameError .invalidFormat) :=
  ⟨(parse_frame_buffer_discipline [37, 49, 13, 10]).1 (.integer 1) [] rfl,
   (parse_frame_buffer_discipline [37, 49]).2.1 rfl,
   (parse_frame_buffer_discipline [63, 13, 10]).2.2 .invalidFormat (by simp) rfl⟩

set_option maxRecDepth 400000 in
theorem as_f32_three_halves : as_f32 (3 / 2) = 3 / 2 := by
  with_unfolding_all rfl

/-- C7: numeric conversion uses native cast semantics — decoding `u8` from
`Integer 300` succeeds with `44` (low 8 bits), and decoding `f32` from
`Double 1.5` succeeds with exactly `1.5` (the binary32 rounding of the
`as f32` cast is the identity on `3/2`). -/
theorem numeric_casts_native :
    u8_from_segment_frame (.integer 300) = .ok 44 ∧
    f32_from_segment_frame (.double (3 / 2)) = .ok (3 / 2) :=
  ⟨rfl, by
    show Except.ok (as_f32 (3 / 2)) = Except.ok (3 / 2)
    rw [as_f32_three_halves]⟩

/-- C8: when the codec cannot produce a frame from the buffered bytes and
the next transport read returns zero bytes (peer closed), `read_frame`
fails immediately with `Eof` — regardless of what the transport would
deliver later (no retry), and `Eof` is a different constructor from every
frame-decode error and from transport errors. -/
theorem read_frame_eof_on_zero_read (buf : List Nat) (cs : List (List Nat))
    (h : parse_bytes buf = .err .incomplete) :
    read_frame ([] :: cs) buf = some (.err .eof) ∧
      (∀ e, ConnectionError.eof ≠ ConnectionError.frameError e) ∧
      ConnectionError.eof ≠ ConnectionError.tcpError := by
  refine ⟨?_, fun e => by simp, by simp⟩
  rw [read_frame, parse_frame_of_incomplete buf h]
  rfl

/-- C8 witness: an empty buffer plus an immediate zero-byte read yields
`Eof`. -/
theorem read_frame_eof_on_zero_read_witness :
    parse_bytes [] = .err .incomplete ∧ read_frame [[]] [] = some (.err .eof) :=
  ⟨rfl, (read_frame_eof_on_zero_read [] [] rfl).1⟩

/-- C9: when the response frame is an Error frame, `Command::query`
surfaces the UTF-8-decoded message as `QueryError` instead of running the
requested type's decoder — for any decoder `dec`. -/
theorem query_surfaces_error_frame {α : Type} (dec : Frame → Except CommandError α)
    (args : List Frame) (chunks : List (List Nat)) (buf : List Nat) (w : List Nat)
    (hw : write_frame (.array args) = some w) (msg buf' : List Nat) (cs' : List (List Nat))
    (s : String) (hr : read_frame chunks buf = some (.ok (.error msg, buf', cs')))
    (hs : utf8_decode msg = some s) :
    query dec args chunks buf = some (.err (.queryError s)) := by
  unfold query
  rw [hw, hr]
  show (match utf8_decode msg with
    | none => some (PRes.err CommandError.utf8Error)
    | some s => some (PRes.err (CommandError.queryError s))) =
    some (.err (.queryError s))
  rw [hs]

/-- C9 witness: the server response `!5\r\nboom!\r\n` makes `query` of an
empty command return `QueryError "boom!"`. -/
theorem query_surfaces_error_frame_witness :
    write_frame (.array []) = some [42, 48, 13, 10] ∧
    read_frame [[33, 53, 13, 10, 98, 111, 111, 109, 33, 13, 10]] [] =
      some (.ok (.error [98, 111, 111, 109, 33], [], [])) ∧
    utf8_decode [98, 111, 111, 109, 33] = some "boom!" ∧
    query (fun _ => (.error .decode : Except CommandError Nat)) []
      [[33, 53, 13, 10, 98, 111, 111, 109, 33, 13, 10]] [] =
      some (.err (.queryError "boom!")) :=
  ⟨rfl, rfl, rfl,
   query_surfaces_error_frame (fun _ => (.error .decode : Except CommandError Nat)) []
     [[33, 53, 13, 10, 98, 111, 111, 109, 33, 13, 10]] [] [42, 48, 13, 10] rfl
     [98, 111, 111, 109, 33] [] [] "boom!" rfl rfl⟩

/-- C10: `u64::to_segment_frame` is `Integer(v as i64)` — two's-complement
wrapping, so every value above `i64::MAX` yields a frame carrying a
negative integer — and decoding `u64` back via `val as u64` undoes the
wrap exactly, for every 64-bit value. -/
theorem u64_wrapping_roundtrip (v : Nat) (hv : v < 2 ^ 64) :
    u64_from_segment_frame (u64_to_segment_frame v) = .ok v ∧
      (2 ^ 63 ≤ v → ∃ i : Int, u64_to_segment_frame v = .integer i ∧ i < 0) := by
  constructor
  · have hcast :
        i64_as_u64 (if v < twoPow63 then (v : Int) else (v : Int) - (twoPow64 : Int)) = v := by
      unfold i64_as_u64 twoPow63 twoPow64
      split <;> omega
    show Except.ok
        (i64_as_u64 (if v < twoPow63 then (v : Int) else (v : Int) - (twoPow64 : Int))) =
      Except.ok v
    rw [hcast]
  · intro hge
    refine ⟨(v : Int) - (twoPow64 : Int), ?_, ?_⟩
    · unfold u64_to_segment_frame
      rw [if_neg (by unfold twoPow63; omega)]
    · unfold twoPow64
      omega

/-- C10 witness: `2 ^ 63` wraps to the negative `i64` value `-2 ^ 63` and
round-trips back to `2 ^ 63`. -/
theorem u64_wrapping_roundtrip_witness :
    (2 ^ 63 : Nat) < 2 ^ 64 ∧
    u64_from_segment_frame (u64_to_segment_frame (2 ^ 63)) = .ok (2 ^ 63) ∧
    ∃ i : Int, u64_to_segment_frame (2 ^ 63) = .integer i ∧ i < 0 :=
  ⟨by norm_num, (u64_wrapping_roundtrip (2 ^ 63) (by norm_num)).1,
   (u64_wrapping_roundtrip (2 ^ 63) (by norm_num)).2 (le_refl _)⟩

end Segment
